import Mathlib

/-!
Verification development for the NDCell cellular-automaton grid engine.

The development shallowly embeds the core data structures and algorithms of
the repository:

* `src/automaton/space/ndtree.rs` — the N-dimensional tree with the
  origin-centered root (`NdTree` / `NdTreeNode`): `contains`, `expand_to`,
  `get_cell`, `set_cell` (section `NdT`).
* `src/automaton/io/rle.rs` — the Golly Extended RLE codec: the `u8` cell
  token codec, `parse_header`, `parse_cxrle`, `parse_content_item` and the
  decode loop of `from_rle` (section `Rle`).
* `src/automaton/space/ndtree/cache.rs` — the interning pool
  (`NdTreeCache::get_node`, `get_empty_node`) modelled with an explicit
  store of interned nodes in which "pointer equality" is equality of the
  index of a node in the store (section `Cache`).
* `src/automaton/space/ndtree/node_old.rs` — the hash-consed node with
  `expand_centered`, `contract_centered`, `get_subtree` and `population`
  (section `NodeOld`).

Machine integers (`isize`, `usize`, `u8`) are modelled as `Int`/`Nat`;
positions (`NdVec<D>`) are lists of `Int` of length `d` where `d = NDIM`.
Rust panics (index out of bounds, `usize` underflow) are marked in comments;
the corresponding arms of the Lean definitions are unreachable for
well-formed trees, which is the hypothesis under which the theorems are
stated.
-/

namespace NDCell

/-! ## Bit arithmetic on coordinates

The Rust code extracts bit `layer - 1` of an `isize` coordinate with
`(pos[axis] >> (self.layer - 1)) & 1` (arithmetic shift right).  On
two's-complement integers an arithmetic shift right by `k` is floor
division by `2^k`, so the extracted bit is `(c.fdiv 2^k).emod 2`. -/

/-- Bit `k` of the two's-complement representation of the integer `c`:
`(c >> k) & 1` with an arithmetic shift, i.e. `⌊c / 2^k⌋ mod 2`. -/
def ibit (c : Int) (k : Nat) : Nat :=
  (c.fdiv (2 ^ k) % 2).toNat

theorem ibit_le_one (c : Int) (k : Nat) : ibit c k ≤ 1 := by
  unfold ibit
  rcases Int.emod_two_eq (c.fdiv (2 ^ k)) with h | h <;> simp [h]

namespace NdT

/-! ## The tree of `src/automaton/space/ndtree.rs`

`NdTreeNode { layer, child }` with `child = Leaf(cell) | Branch(children)`
is flattened into a single inductive: `leaf layer cell` and
`branch layer children`. -/

/-- A node of the simple ND-tree (`NdTreeNode<T, D>` in `ndtree.rs`).
`T` is fixed to `Nat` (the repository instantiates `T = u8`);
the default cell state `T::default()` is `0`. -/
inductive Node : Type where
  | leaf (layer : Nat) (cell : Nat)
  | branch (layer : Nat) (children : List Node)
  deriving Repr

/-- The `layer` field of a node. -/
def Node.layer : Node → Nat
  | .leaf l _ => l
  | .branch l _ => l

/-- Branch index of a position inside a node (`get_branch_index`):
take bit `layer - 1` of each coordinate and pack them, first axis as the
most significant bit. -/
def branchIdx (layer : Nat) (pos : List Int) : Nat :=
  pos.foldl (fun acc c => 2 * acc + ibit c (layer - 1)) 0

/-- Branch index at the top-level (root) node (`get_branch_index_top`):
the plain branch index with every bit inverted (XOR with
`BRANCH_IDX_MASK = 2^d - 1`), because negative coordinates must sort below
non-negative ones. -/
def branchIdxTop (d : Nat) (layer : Nat) (pos : List Int) : Nat :=
  (branchIdx layer pos) ^^^ (2 ^ d - 1)

/-- The most negative coordinate the node represents when centered at the
origin (`min_coordinate`): `0 - (1 << (layer - 1))`. -/
def minCoordinate (layer : Nat) : Int :=
  0 - 2 ^ (layer - 1)

/-- The most positive coordinate per the code (`max_coordinate`):
`1 + (1 << (layer - 1))`.  (The doc comment of the Rust function describes
the range of an `layer`-bit two's-complement integer, whose maximum is
`2^(layer-1) - 1`; the returned value is larger.) -/
def maxCoordinate (layer : Nat) : Int :=
  1 + 2 ^ (layer - 1)

/-- Membership test of `NdTreeNode::contains`: every coordinate must
satisfy `min_coordinate ≤ c ≤ max_coordinate`. -/
def containsPos (layer : Nat) (pos : List Int) : Bool :=
  pos.all fun c => decide (minCoordinate layer ≤ c) && decide (c ≤ maxCoordinate layer)

/-- One step of `expand_to`'s else-branch: expand the node by one layer
while keeping it centered.  A leaf child is reused as-is; each branch child
`b` is placed in the opposite corner (`b XOR mask`) of a new intermediate
node that is otherwise filled with default leaves. -/
def expandBranches (d : Nat) (layer : Nat) : Nat → List Node → List Node
  | _, [] => []
  | bi, c :: rest =>
      Node.branch layer
        ((List.replicate (2 ^ d) (Node.leaf (layer - 1) 0)).set (bi ^^^ (2 ^ d - 1)) c)
        :: expandBranches d layer (bi + 1) rest

/-- Expansion of a node by exactly one layer (the else-arm of `expand_to`). -/
def expandOnce (d : Nat) : Node → Node
  | .leaf l c => .leaf (l + 1) c
  | .branch l cs => .branch (l + 1) (expandBranches d l 0 cs)

theorem layer_expandOnce (d : Nat) (n : Node) :
    (expandOnce d n).layer = n.layer + 1 := by
  cases n <;> rfl

/-- An upper bound on the layer needed to contain `pos`; used only as a
termination measure for `expandTo`. -/
def boundLayer (pos : List Int) : Nat :=
  (pos.map Int.natAbs).foldr max 0 + 1

theorem le_boundLayer_contains (pos : List Int) (l : Nat)
    (h : boundLayer pos ≤ l) : containsPos l pos = true := by
  unfold containsPos
  rw [List.all_eq_true]
  intro c hc
  have hmem : c.natAbs ∈ pos.map Int.natAbs := List.mem_map_of_mem _ hc
  have hle : c.natAbs ≤ (pos.map Int.natAbs).foldr max 0 := by
    clear h
    generalize pos.map Int.natAbs = L at hmem
    induction L with
    | nil => cases hmem
    | cons a t ih =>
        rcases List.mem_cons.mp hmem with h1 | h2
        · simp [h1, List.foldr]
        · have := ih h2
          simp only [List.foldr]
          omega
  have hl1 : c.natAbs + 1 ≤ l := by
    unfold boundLayer at h; omega
  have hpow : l ≤ 2 ^ (l - 1) := by
    rcases Nat.eq_zero_or_pos l with h0 | h0
    · omega
    · have := Nat.lt_two_pow (l - 1)
      omega
  have habs : (c.natAbs : Int) ≤ (2 : Int) ^ (l - 1) := by
    have h1 : c.natAbs ≤ 2 ^ (l - 1) := by omega
    exact_mod_cast h1
  rw [Bool.and_eq_true]
  refine ⟨?_, ?_⟩
  · simp only [minCoordinate, decide_eq_true_eq]
    omega
  · simp only [maxCoordinate, decide_eq_true_eq]
    omega

theorem lt_boundLayer_of_not_contains (pos : List Int) (l : Nat)
    (h : containsPos l pos = false) : l < boundLayer pos := by
  by_contra hcon
  have : boundLayer pos ≤ l := by omega
  rw [le_boundLayer_contains pos l this] at h
  cases h

/-- `expand_to`: expand the tree one layer at a time until its rectangle
contains `pos`. -/
def expandTo (d : Nat) (n : Node) (pos : List Int) : Node :=
  if containsPos n.layer pos then n
  else expandTo d (expandOnce d n) pos
termination_by boundLayer pos - n.layer
decreasing_by
  rename_i hc
  rw [layer_expandOnce]
  have hl := lt_boundLayer_of_not_contains pos n.layer (by
    cases h : containsPos n.layer pos
    · rfl
    · exact absurd h hc)
  omega

theorem expandTo_eq (d : Nat) (n : Node) (pos : List Int) :
    expandTo d n pos =
      if containsPos n.layer pos then n else expandTo d (expandOnce d n) pos := by
  rw [expandTo]

/-- Cell lookup below the root (`get_cell_inner`): a leaf returns its cell;
a branch recurses into the child selected by the un-flipped branch index.
A missing child (`none`) corresponds to an out-of-bounds index, on which the
Rust code panics; it is unreachable for well-formed trees. -/
def getCellInner : Node → List Int → Nat
  | .leaf _ c, _ => c
  | .branch l cs, pos =>
      match h : cs.get? (branchIdx l pos) with
      | none => 0
      | some child => getCellInner child pos
decreasing_by
  have hm : child ∈ cs := List.get?_mem h
  have := List.sizeOf_lt_of_mem hm
  simp [Node.branch.sizeOf_spec]
  omega

/-- Cell lookup at the root (`get_cell`): positions outside the node per
`contains` give the default state; otherwise descend using the flipped
top-level branch index. -/
def getCell (d : Nat) (n : Node) (pos : List Int) : Nat :=
  if containsPos n.layer pos then
    match n with
    | .leaf _ c => c
    | .branch l cs =>
        match cs.get? (branchIdxTop d l pos) with
        | none => 0
        | some child => getCellInner child pos
  else 0

/-- Cell write below the root (`set_cell_inner`).  `expand_child` is inlined:
at layer `0` a leaf child stays a leaf (and receives the new value); at
layer `l + 1` a leaf is first expanded into `2^d` copies one layer lower.
The `none` arm again corresponds to a Rust panic on an out-of-range index,
unreachable for well-formed trees; a `branch` at layer `0` would make the
Rust code panic on `self.layer - 1` underflow and is likewise unreachable. -/
def setCellInner (d : Nat) : Node → List Int → Nat → Node
  | .leaf 0 _, _, v => .leaf 0 v
  | .leaf (l + 1) c, pos, v =>
      Node.branch (l + 1)
        ((List.replicate (2 ^ d) (Node.leaf l c)).set (branchIdx (l + 1) pos)
          (setCellInner d (Node.leaf l c) pos v))
  | .branch l cs, pos, v =>
      match h : cs.get? (branchIdx l pos) with
      | none => .branch l cs
      | some child =>
          .branch l (cs.set (branchIdx l pos) (setCellInner d child pos v))
termination_by n _ _ => sizeOf n
decreasing_by
  · simp [Node.leaf.sizeOf_spec]
  · have hm : child ∈ cs := List.get?_mem h
    have := List.sizeOf_lt_of_mem hm
    simp [Node.branch.sizeOf_spec]
    omega

/-- Cell write at the root (`set_cell`): first `expand_to` the position, then
substitute along the path selected by the flipped top index.  The layer of
the result is the layer of the expanded tree. -/
def setCell (d : Nat) (n : Node) (pos : List Int) (v : Nat) : Node :=
  match expandTo d n pos with
  | .leaf 0 _ => .leaf 0 v
  | .leaf (l + 1) c =>
      Node.branch (l + 1)
        ((List.replicate (2 ^ d) (Node.leaf l c)).set (branchIdxTop d (l + 1) pos)
          (setCellInner d (Node.leaf l c) pos v))
  | .branch l cs =>
      match cs.get? (branchIdxTop d l pos) with
      | none => .branch l cs
      | some child =>
          .branch l (cs.set (branchIdxTop d l pos) (setCellInner d child pos v))

/-- A fresh tree (`NdTree::new`): a layer-1 node with a default leaf child. -/
def newTree : Node := .leaf 1 0

/-! Unfolding equations for the recursive definitions (the definitions use
well-founded recursion, so these are proved once and used for evaluation). -/

theorem getCellInner_leaf (l c : Nat) (pos : List Int) :
    getCellInner (Node.leaf l c) pos = c := by
  rw [getCellInner]

theorem getCellInner_branch (l : Nat) (cs : List Node) (pos : List Int) :
    getCellInner (Node.branch l cs) pos =
      match cs.get? (branchIdx l pos) with
      | none => 0
      | some child => getCellInner child pos := by
  rw [getCellInner]
  cases hg : cs.get? (branchIdx l pos) with
  | none => simp [hg]
  | some child => simp [hg]

theorem setCellInner_leaf_zero (d c : Nat) (pos : List Int) (v : Nat) :
    setCellInner d (Node.leaf 0 c) pos v = Node.leaf 0 v := by
  rw [setCellInner]

theorem setCellInner_leaf_succ (d l c : Nat) (pos : List Int) (v : Nat) :
    setCellInner d (Node.leaf (l + 1) c) pos v =
      Node.branch (l + 1)
        ((List.replicate (2 ^ d) (Node.leaf l c)).set (branchIdx (l + 1) pos)
          (setCellInner d (Node.leaf l c) pos v)) := by
  rw [setCellInner]

theorem setCellInner_branch (d l : Nat) (cs : List Node) (pos : List Int) (v : Nat) :
    setCellInner d (Node.branch l cs) pos v =
      match cs.get? (branchIdx l pos) with
      | none => Node.branch l cs
      | some child =>
          Node.branch l (cs.set (branchIdx l pos) (setCellInner d child pos v)) := by
  rw [setCellInner]
  cases hg : cs.get? (branchIdx l pos) with
  | none => simp [hg]
  | some child => simp [hg]

/-- Well-formedness of a node at an expected layer: leaves may sit at any
layer (a uniform region); a branch node at layer `l + 1` has exactly `2^d`
children, each well-formed at layer `l`.  (Branch nodes at layer 0 do not
occur.) -/
inductive WFat (d : Nat) : Nat → Node → Prop where
  | leaf (l : Nat) (c : Nat) : WFat d l (.leaf l c)
  | branch (l : Nat) (cs : List Node)
      (hlen : cs.length = 2 ^ d)
      (hmem : ∀ c ∈ cs, WFat d l c) :
      WFat d (l + 1) (.branch (l + 1) cs)

/-- Well-formedness of a root: layer at least 1 and structurally well formed. -/
def WFroot (d : Nat) (n : Node) : Prop :=
  1 ≤ n.layer ∧ WFat d n.layer n

theorem WFat_layer {d l : Nat} {n : Node} (h : WFat d l n) : n.layer = l := by
  cases h <;> rfl

theorem WFat_branch_inv {d L l : Nat} {cs : List Node}
    (h : WFat d L (.branch l cs)) :
    cs.length = 2 ^ d ∧ 1 ≤ l ∧ ∀ c ∈ cs, WFat d (l - 1) c := by
  cases h with
  | branch l0 cs hlen hmem =>
      refine ⟨hlen, by omega, ?_⟩
      simpa using hmem

/-! ### Bounds on branch indices -/

theorem foldl_branch_bound (layer : Nat) :
    ∀ (pos : List Int) (acc k : Nat), acc < 2 ^ k →
      pos.foldl (fun a c => 2 * a + ibit c (layer - 1)) acc < 2 ^ (k + pos.length) := by
  intro pos
  induction pos with
  | nil => intro acc k h; simpa using h
  | cons c t ih =>
      intro acc k h
      have hb := ibit_le_one c (layer - 1)
      have hacc : 2 * acc + ibit c (layer - 1) < 2 ^ (k + 1) := by
        have : 2 ^ (k + 1) = 2 * 2 ^ k := by ring
        omega
      have := ih (2 * acc + ibit c (layer - 1)) (k + 1) hacc
      simp only [List.foldl, List.length_cons]
      have harr : k + 1 + t.length = k + (t.length + 1) := by omega
      rw [harr] at this
      exact this

theorem branchIdx_lt (layer : Nat) (pos : List Int) :
    branchIdx layer pos < 2 ^ pos.length := by
  have := foldl_branch_bound layer pos 0 0 (by norm_num)
  simpa [branchIdx] using this

theorem branchIdxTop_lt (d layer : Nat) (pos : List Int) (h : pos.length = d) :
    branchIdxTop d layer pos < 2 ^ d := by
  have h1 : branchIdx layer pos < 2 ^ d := by
    have := branchIdx_lt layer pos
    rwa [h] at this
  have h2 : 2 ^ d - 1 < 2 ^ d := by
    have : 0 < 2 ^ d := Nat.pos_pow_of_pos d (by norm_num)
    omega
  exact Nat.xor_lt_two_pow h1 h2

/-! ### Preservation of well-formedness -/

theorem length_expandBranches (d layer : Nat) :
    ∀ (bi : Nat) (cs : List Node),
      (expandBranches d layer bi cs).length = cs.length := by
  intro bi cs
  induction cs generalizing bi with
  | nil => rfl
  | cons c t ih => simp [expandBranches, ih]

theorem mem_expandBranches (d layer : Nat) :
    ∀ (bi : Nat) (cs : List Node), ∀ x ∈ expandBranches d layer bi cs,
      ∃ j c, c ∈ cs ∧
        x = Node.branch layer
          ((List.replicate (2 ^ d) (Node.leaf (layer - 1) 0)).set j c) := by
  intro bi cs
  induction cs generalizing bi with
  | nil => intro x hx; cases hx
  | cons c t ih =>
      intro x hx
      rcases List.mem_cons.mp hx with h1 | h2
      · exact ⟨bi ^^^ (2 ^ d - 1), c, List.mem_cons_self _ _, h1⟩
      · rcases ih (bi + 1) x h2 with ⟨j, c', hc', hx'⟩
        exact ⟨j, c', List.mem_cons_of_mem _ hc', hx'⟩

theorem WFat_expandOnce {d l : Nat} {n : Node} (h : WFat d l n) :
    WFat d (l + 1) (expandOnce d n) := by
  cases h with
  | leaf l c => exact WFat.leaf (l + 1) c
  | branch l cs hlen hmem =>
      simp only [expandOnce]
      apply WFat.branch (l + 1)
      · rw [length_expandBranches]; exact hlen
      · intro x hx
        rcases mem_expandBranches d (l + 1) 0 cs x hx with ⟨j, c, hc, hx'⟩
        subst hx'
        apply WFat.branch l
        · simp [hlen]
        · intro y hy
          rcases List.mem_or_eq_of_mem_set hy with hy' | hy'
          · have := List.eq_of_mem_replicate hy'
            subst this
            exact WFat.leaf l 0
          · subst hy'
            exact hmem _ hc

theorem expandTo_spec (d : Nat) (pos : List Int) :
    ∀ (k : Nat) (n : Node), boundLayer pos - n.layer ≤ k →
      n.layer ≤ (expandTo d n pos).layer ∧
      containsPos (expandTo d n pos).layer pos = true ∧
      (WFat d n.layer n → WFat d (expandTo d n pos).layer (expandTo d n pos)) := by
  intro k
  induction k with
  | zero =>
      intro n hk
      have hb : boundLayer pos ≤ n.layer := by omega
      have hc := le_boundLayer_contains pos n.layer hb
      rw [expandTo_eq, hc]
      exact ⟨le_refl _, hc, fun h => h⟩
  | succ k ih =>
      intro n hk
      rw [expandTo_eq]
      cases hc : containsPos n.layer pos with
      | true => exact ⟨le_refl _, hc, fun h => h⟩
      | false =>
          simp only [Bool.false_eq_true, if_false]
          have hlt := lt_boundLayer_of_not_contains pos n.layer hc
          have hk' : boundLayer pos - (expandOnce d n).layer ≤ k := by
            rw [layer_expandOnce]; omega
          rcases ih (expandOnce d n) hk' with ⟨h1, h2, h3⟩
          refine ⟨?_, h2, ?_⟩
          · rw [layer_expandOnce] at h1; omega
          · intro hwf
            apply h3
            rw [layer_expandOnce]
            exact WFat_expandOnce hwf

theorem expandTo_layer_le (d : Nat) (n : Node) (pos : List Int) :
    n.layer ≤ (expandTo d n pos).layer :=
  (expandTo_spec d pos _ n (le_refl _)).1

theorem expandTo_contains (d : Nat) (n : Node) (pos : List Int) :
    containsPos (expandTo d n pos).layer pos = true :=
  (expandTo_spec d pos _ n (le_refl _)).2.1

theorem expandTo_WF (d : Nat) (n : Node) (pos : List Int) (h : WFat d n.layer n) :
    WFat d (expandTo d n pos).layer (expandTo d n pos) :=
  (expandTo_spec d pos _ n (le_refl _)).2.2 h

/-! ### Get after set -/

theorem getCellInner_setCellInner (d : Nat) (pos : List Int) (v : Nat)
    (hd : pos.length = d) :
    ∀ (l : Nat) (n : Node), WFat d l n →
      getCellInner (setCellInner d n pos v) pos = v := by
  intro l
  induction l with
  | zero =>
      intro n hwf
      have hL := WFat_layer hwf
      cases n with
      | leaf lf cf =>
          simp only [Node.layer] at hL
          subst hL
          simp [setCellInner, getCellInner]
      | branch lb cs =>
          rcases WFat_branch_inv hwf with ⟨_, hb1, _⟩
          simp only [Node.layer] at hL
          omega
  | succ l ih =>
      intro n hwf
      have hL := WFat_layer hwf
      cases n with
      | leaf lf cf =>
          simp only [Node.layer] at hL
          subst hL
          have hidx : branchIdx (l + 1) pos < 2 ^ d := by
            have := branchIdx_lt (l + 1) pos
            rwa [hd] at this
          simp only [setCellInner]
          have hget : ((List.replicate (2 ^ d) (Node.leaf l cf)).set
              (branchIdx (l + 1) pos)
              (setCellInner d (Node.leaf l cf) pos v)).get? (branchIdx (l + 1) pos)
              = some (setCellInner d (Node.leaf l cf) pos v) := by
            rw [List.get?_set_eq]
            rw [List.get?_eq_getElem?, List.getElem?_replicate]
            simp [hidx]
          rw [getCellInner, hget]
          exact ih (Node.leaf l cf) (WFat.leaf l cf)
      | branch lb cs =>
          rcases WFat_branch_inv hwf with ⟨hlen, hb1, hmem⟩
          simp only [Node.layer] at hL
          subst hL
          have hidx : branchIdx (l + 1) pos < 2 ^ d := by
            have := branchIdx_lt (l + 1) pos
            rwa [hd] at this
          have hsome : ∃ child, cs.get? (branchIdx (l + 1) pos) = some child := by
            cases hg : cs.get? (branchIdx (l + 1) pos) with
            | none =>
                rw [List.get?_eq_none] at hg
                omega
            | some child => exact ⟨child, rfl⟩
          rcases hsome with ⟨child, hchild⟩
          rw [setCellInner, hchild]
          have hget : (cs.set (branchIdx (l + 1) pos) (setCellInner d child pos v)).get?
              (branchIdx (l + 1) pos) = some (setCellInner d child pos v) := by
            rw [List.get?_set_eq, hchild]
            rfl
          rw [getCellInner, hget]
          have hwfc := hmem child (List.get?_mem hchild)
          simp only [Nat.add_sub_cancel] at hwfc
          exact ih child hwfc

/-- Claim C1.  `NdTree::set_cell` followed by `NdTree::get_cell` at the same
position returns the value just written, for every well-formed tree, every
position of the right dimension, and every cell state. -/
theorem getCell_setCell (d : Nat) (t : Node) (pos : List Int) (v : Nat)
    (hwf : WFroot d t) (hd : pos.length = d) :
    getCell d (setCell d t pos v) pos = v := by
  rcases hwf with ⟨hl1, hwf⟩
  have hwf' := expandTo_WF d t pos hwf
  have hcont := expandTo_contains d t pos
  have hlay := expandTo_layer_le d t pos
  have hitop : branchIdxTop d (expandTo d t pos).layer pos < 2 ^ d :=
    branchIdxTop_lt d _ pos hd
  unfold setCell
  cases hexp : expandTo d t pos with
  | leaf l c =>
      rw [hexp] at hwf' hcont hlay hitop
      cases l with
      | zero =>
          exfalso
          have h0 : (Node.leaf 0 c).layer = 0 := rfl
          omega
      | succ l =>
          have hcont' : containsPos (l + 1) pos = true := hcont
          simp only [getCell, Node.layer, hcont', if_true]
          have hget : ((List.replicate (2 ^ d) (Node.leaf l c)).set
              (branchIdxTop d (l + 1) pos)
              (setCellInner d (Node.leaf l c) pos v)).get?
              (branchIdxTop d (l + 1) pos)
              = some (setCellInner d (Node.leaf l c) pos v) := by
            rw [List.get?_set_eq]
            rw [List.get?_eq_getElem?, List.getElem?_replicate]
            simp only [Node.layer] at hitop
            simp [hitop]
          rw [hget]
          exact getCellInner_setCellInner d pos v hd l (Node.leaf l c) (WFat.leaf l c)
  | branch l cs =>
      rw [hexp] at hwf' hcont hlay hitop
      rcases WFat_branch_inv hwf' with ⟨hlen, hb1, hmem⟩
      simp only [Node.layer] at hcont hitop
      have hsome : ∃ child, cs.get? (branchIdxTop d l pos) = some child := by
        cases hg : cs.get? (branchIdxTop d l pos) with
        | none =>
            rw [List.get?_eq_none] at hg
            omega
        | some child => exact ⟨child, rfl⟩
      rcases hsome with ⟨child, hchild⟩
      dsimp only
      rw [hchild]
      simp only [getCell, Node.layer, hcont, if_true]
      have hget : (cs.set (branchIdxTop d l pos)
          (setCellInner d child pos v)).get? (branchIdxTop d l pos)
          = some (setCellInner d child pos v) := by
        rw [List.get?_set_eq, hchild]
        rfl
      rw [hget]
      exact getCellInner_setCellInner d pos v hd (l - 1) child
        (hmem child (List.get?_mem hchild))

end NdT

/-- Claim C1: for every tree `t`, every position `p`, and every cell state
`s`, `(t.set_cell(p, s)).get_cell(p) = s`.  `t` ranges over the well-formed
trees (the trees reachable from `NdTree::new` through the public API) and
`p` over positions of the tree's dimension. -/
theorem claim_C1_set_then_get (d : Nat) (t : NdT.Node) (p : List Int) (s : Nat)
    (hwf : NdT.WFroot d t) (hp : p.length = d) :
    NdT.getCell d (NdT.setCell d t p s) p = s :=
  NdT.getCell_setCell d t p s hwf hp

/-- Witness for claim C1 at a concrete input: dimension 2, a fresh tree, and
the position `(3, -4)`. -/
theorem claim_C1_witness :
    NdT.WFroot 2 NdT.newTree ∧ ([(3:Int), -4] : List Int).length = 2 ∧
    NdT.getCell 2 (NdT.setCell 2 NdT.newTree [3, -4] 9) [3, -4] = 9 :=
  ⟨⟨Nat.le_refl 1, NdT.WFat.leaf 1 0⟩, rfl,
    claim_C1_set_then_get 2 NdT.newTree [3, -4] 9
      ⟨Nat.le_refl 1, NdT.WFat.leaf 1 0⟩ rfl⟩

/-- Claim C2 (counter-evaluation): the single-cell frame property fails on
the code.  Because `NdTreeNode::contains` uses the inclusive upper bound
`1 + 2^(layer-1)`, writing at `(1,1,1)` on a fresh 3-dimensional tree does
not grow the layer-1 root (whose cells are only `{-1,0}` per axis), and the
write lands in the slot of `(-1,-1,-1)`.  The repository's own property
test (`test_ndtree_set_get` in `ndtree.rs`, which compares the tree against
a `HashMap` on arbitrary 3D writes) fails on exactly this input. -/
theorem claim_C2_frame_violated :
    ([(1:Int), 1, 1] : List Int) ≠ [-1, -1, -1] ∧
    NdT.getCell 3 NdT.newTree [-1, -1, -1] = 0 ∧
    NdT.getCell 3 (NdT.setCell 3 NdT.newTree [1, 1, 1] 1) [-1, -1, -1] = 1 := by
  have hexp : NdT.expandTo 3 NdT.newTree [1, 1, 1] = NdT.newTree := by
    rw [NdT.expandTo_eq]
    simp only [show NdT.containsPos NdT.newTree.layer [1, 1, 1] = true from by decide,
      if_true]
  refine ⟨by decide, by decide, ?_⟩
  unfold NdT.setCell
  rw [hexp]
  simp only [NdT.newTree]
  simp only [NdT.setCellInner_leaf_zero,
    show NdT.branchIdxTop 3 1 [(1:Int), 1, 1] = 0 from by decide]
  simp only [NdT.getCell, NdT.Node.layer,
    show NdT.containsPos 1 [(-1:Int), -1, -1] = true from by decide,
    show NdT.branchIdxTop 3 1 [(-1:Int), -1, -1] = 0 from by decide,
    if_true]
  norm_num [List.set, List.get?, NdT.getCellInner_leaf]

/-- Claim C3 (counter-evaluation): the root of a layer-1 tree is supposed to
represent exactly the range `[-2^0, 2^0) = {-1, 0}` per axis, and the claim
says lookups outside that range return the default state.  In the code,
after `set_cell((-1,-1), 1)` (which keeps the root at layer 1) the lookup
`get_cell((1,1))` returns `1`, not the default `0`, because `contains`
admits coordinates up to `1 + 2^0 = 2` and the coordinate `1` aliases the
stored cell at `-1`. -/
theorem claim_C3_outside_root_not_default :
    (NdT.setCell 2 NdT.newTree [-1, -1] 1).layer = 1 ∧
    ¬ ((1 : Int) < 2 ^ (1 - 1)) ∧
    NdT.getCell 2 (NdT.setCell 2 NdT.newTree [-1, -1] 1) [1, 1] = 1 := by
  have hexp : NdT.expandTo 2 NdT.newTree [-1, -1] = NdT.newTree := by
    rw [NdT.expandTo_eq]
    simp only [show NdT.containsPos NdT.newTree.layer [-1, -1] = true from by decide,
      if_true]
  refine ⟨?_, by decide, ?_⟩
  · unfold NdT.setCell
    rw [hexp]
    simp only [NdT.newTree]
    rfl
  · unfold NdT.setCell
    rw [hexp]
    simp only [NdT.newTree]
    simp only [NdT.setCellInner_leaf_zero,
      show NdT.branchIdxTop 2 1 [(-1:Int), -1] = 0 from by decide]
    simp only [NdT.getCell, NdT.Node.layer,
      show NdT.containsPos 1 [(1:Int), 1] = true from by decide,
      show NdT.branchIdxTop 2 1 [(1:Int), 1] = 0 from by decide,
      if_true]
    norm_num [List.set, List.get?, NdT.getCellInner_leaf]

namespace Rle

/-! ## The cell-state token codec of `src/automaton/io/rle.rs`

`impl RleCellType for u8`: `push_to_string` emits the one- or two-character
token for a cell state, `from_str` decodes a token.  Cell states are `Nat`
values in `[0, 255]`. -/

/-- `char_diff`: the "distance" between two characters such that
`char_diff('A','A') = 1` (`ch2 as u8 - ch1 as u8 + 1`).  In the contexts in
which the code calls it, `ch2 ≥ ch1` always holds, so the `u8` subtraction
never wraps; `Nat` truncating subtraction models it. -/
def charDiff (ch1 ch2 : Char) : Nat :=
  ch2.toNat - ch1.toNat + 1

/-- `u8::push_to_string`: the emitted characters for a cell state.
State `0` is `"."`; otherwise an optional high character
`'p' + (n-1)/24 - 1` (present iff `n ≥ 25`) followed by `'A' + (n-1) % 24`. -/
def encodeCell (v : Nat) : List Char :=
  if v = 0 then ['.']
  else
    (if 25 ≤ v then [Char.ofNat ('p'.toNat + (v - 1) / 24 - 1)] else [])
      ++ [Char.ofNat ('A'.toNat + (v - 1) % 24)]

/-- `u8::from_str`: decode a token.  The first character selects the range;
two-character tokens use a `checked_add` (modelled by the `≤ 255` test);
the final guard re-checks the range against the token length. -/
def fromStrU8 (s : List Char) : Option Nat :=
  (match s with
   | [] => none
   | ch1 :: rest =>
      if ch1 = 'b' ∨ ch1 = '.' then some 0
      else if ch1 = 'o' then some 1
      else if 'A' ≤ ch1 ∧ ch1 ≤ 'X' then some (charDiff 'A' ch1)
      else if 'p' ≤ ch1 ∧ ch1 ≤ 'y' then
        let value1 := charDiff 'p' ch1 * 24
        match rest.head? with
        | some ch2 =>
            if 'A' ≤ ch2 ∧ ch2 ≤ 'X' then
              if value1 + charDiff 'A' ch2 ≤ 255 then some (value1 + charDiff 'A' ch2)
              else none
            else none
        | none => none
      else none).bind
    fun n =>
      if n ≤ 24 ∧ s.length = 1 then some n
      else if 25 ≤ n ∧ n ≤ 255 ∧ s.length = 2 then some n
      else none

/-! ## The tree behind `NdAutomaton<Dim2D>` -/

/-- Modelled from the spec: the ND-tree with `BigInt` positions used by
`from_rle` (`ret.tree` of `NdAutomaton<Dim2D>`) is not under `src/`; only
its callers and tests are.  Per spec sections 4.5, 4.6 and the laws of
section 8 (laws 3, 4 and 7), `set_cell`/`get_cell` behave as a sparse map
from positions to cell states with default `0`, and `population` counts the
positions holding a non-default state.  The grid is the list of writes,
most recent first. -/
abbrev Grid : Type := List ((Int × Int) × Nat)

/-- Modelled from the spec: `set_cell(p, v)` records the write; later writes
shadow earlier ones. -/
def setCellG (g : Grid) (p : Int × Int) (v : Nat) : Grid :=
  (p, v) :: g

/-- Modelled from the spec: `get_cell(p)` returns the most recent write at
`p`, or the default state `0`. -/
def getCellG (g : Grid) (p : Int × Int) : Nat :=
  match List.find? (fun e => decide (e.1 = p)) g with
  | some e => e.2
  | none => 0

/-- Modelled from the spec: `population` counts the distinct positions whose
current state is non-default. -/
def population (g : Grid) : Nat :=
  (((g.map Prod.fst).dedup).filter (fun p => decide (getCellG g p ≠ 0))).length

/-! ## Integer token parsing

`str::parse::<isize>` / `::<usize>` / `::<BigInt>`: an optional sign
(`isize`, `BigInt`) followed by one or more decimal digits. -/

/-- Decimal digit test. -/
def isDigitCh (c : Char) : Bool :=
  decide ('0' ≤ c) && decide (c ≤ '9')

/-- Parse an unsigned decimal numeral (`str::parse::<usize>` without sign). -/
def parseNat? (cs : List Char) : Option Nat :=
  if cs ≠ [] && cs.all isDigitCh then
    some (cs.foldl (fun acc c => 10 * acc + (c.toNat - '0'.toNat)) 0)
  else none

/-- Parse a signed decimal numeral (`str::parse::<isize>` and
`BigInt::from_str`: optional `+`/`-` sign then digits). -/
def parseInt? (cs : List Char) : Option Int :=
  match cs with
  | '-' :: rest => (parseNat? rest).map (fun n => -(n : Int))
  | '+' :: rest => (parseNat? rest).map (fun n => (n : Int))
  | _ => (parseNat? cs).map (fun n => (n : Int))

/-! ## The token-pair interface of `from_rle`

`from_rle` iterates over the pairs produced by the pest grammar
(`rle.pest`, not under `src/`).  A pair is a header (with its inner token
strings), a note (a comment or a CXRLE key-value list), or a content block
(a list of `content_item`s, each an optional count and a tag). -/

/-- The tag of a `content_item`: end-of-row (`$`) or a cell-state token. -/
inductive CTag : Type where
  | endRow : CTag
  | state (s : List Char) : CTag
  deriving Repr, DecidableEq

/-- A `content_item` pair: an optional count numeral and a tag. -/
structure CItem : Type where
  cnt : Option (List Char)
  tag : CTag
  deriving Repr, DecidableEq

/-- The inner pair of a `notes` pair. -/
inductive NotePair : Type where
  | comment (s : List Char) : NotePair
  | cxrle (kvs : List (List (List Char))) : NotePair
  deriving Repr, DecidableEq

/-- A top-level pair of the RLE grammar, as consumed by `from_rle`. -/
inductive RlePair : Type where
  | header (inners : List (List Char)) : RlePair
  | note (n : NotePair) : RlePair
  | content (items : List CItem) : RlePair
  deriving Repr, DecidableEq

/-- Whether a pair is an RLE header pair. -/
def RlePair.isHeaderP : RlePair → Bool
  | .header _ => true
  | _ => false

/-- The parsed `x = ..., y = ..., rule = ...` header (`RleHeader`). -/
structure RleHeader : Type where
  x : Int
  y : Int
  rule : Option (List Char)
  deriving Repr, DecidableEq

/-- `parse_header`: the first inner token is the X value, the second the Y
value (both parsed as `isize`, with distinct error messages for a missing
token and an unparsable one), the optional third is the rule name. -/
def parseHeader (inners : List (List Char)) : Except String RleHeader :=
  match inners.get? 0 with
  | none => .error "No X value in RLE header"
  | some xs =>
      match parseInt? xs with
      | none => .error "Could not parse RLE X value as integer"
      | some x =>
          match inners.get? 1 with
          | none => .error "No Y value in RLE header"
          | some ys =>
              match parseInt? ys with
              | none => .error "Could not parse RLE Y value as integer"
              | some y => .ok ⟨x, y, inners.get? 2⟩

/-- The parsed CXRLE header (`CxrleHeader`): pattern position and
generation count. -/
structure CxrleHeader : Type where
  pos : Int × Int
  gen : Int
  deriving Repr, DecidableEq

/-- Split a character list at every occurrence of `sep` (like
`str::split`): `n` separators yield `n + 1` parts. -/
def splitOnCh (sep : Char) : List Char → List (List Char)
  | [] => [[]]
  | c :: rest =>
      let r := splitOnCh sep rest
      if c = sep then [] :: r
      else
        match r with
        | [] => [[c]]
        | h :: t => (c :: h) :: t

/-- The key-value loop of `parse_cxrle`, threading the `pos` and `gen`
accumulators.  `Pos` splits its value on commas: the first two components
must parse as `BigInt`, and a third component is an error.  `Gen` parses as
`isize`.  Unknown keys are errors. -/
def parseCxrleKvs : List (List (List Char)) → (Int × Int) → Int →
    Except String CxrleHeader
  | [], pos, gen => .ok ⟨pos, gen⟩
  | kv :: rest, pos, gen =>
      match kv.get? 0 with
      | none => .error "Invalid CXRLE key"
      | some k =>
          match kv.get? 1 with
          | none => .error "Invalid CXRLE value"
          | some v =>
              if k = "Pos".data then
                let comps := splitOnCh ',' v
                match comps.get? 0 with
                | none => .error "Invalid CXRLE Pos"
                | some c1 =>
                    match parseInt? c1 with
                    | none => .error "Invalid CXRLE Pos"
                    | some x =>
                        match comps.get? 1 with
                        | none => .error "Invalid CXRLE Pos"
                        | some c2 =>
                            match parseInt? c2 with
                            | none => .error "Invalid CXRLE Pos"
                            | some y =>
                                if 3 ≤ comps.length then .error "Invalid CXRLE Pos"
                                else parseCxrleKvs rest (x, y) gen
              else if k = "Gen".data then
                match parseInt? v with
                | none => .error "Invalid CXRLE Gen"
                | some g => parseCxrleKvs rest pos g
              else .error "Unknown CXRLE string"

/-- `parse_cxrle`: fold the key-value pairs starting from the origin and
generation `0`. -/
def parseCxrle (kvs : List (List (List Char))) : Except String CxrleHeader :=
  parseCxrleKvs kvs (0, 0) 0

/-- A decoded content item: a cell state or an end-of-row marker
(`RleItem`). -/
inductive RItem : Type where
  | cell (c : Nat) : RItem
  | endRow : RItem
  deriving Repr, DecidableEq

/-- `parse_content_item`: the count defaults to 1 and must parse as `usize`;
the tag is either `$` or a cell-state token decoded by `u8::from_str`
(out-of-range tokens are the error "Cell state out of range"). -/
def parseContentItem (it : CItem) : Except String (Nat × RItem) :=
  match (match it.cnt with
         | none => Except.ok 1
         | some s =>
             match parseNat? s with
             | none => Except.error "Invalid RLE content"
             | some n => Except.ok n : Except String Nat) with
  | .error e => .error e
  | .ok n =>
      match it.tag with
      | .endRow => .ok (n, .endRow)
      | .state s =>
          match fromStrU8 s with
          | none => .error "Cell state out of range"
          | some c => .ok (n, .cell c)

/-- Append a cell to the last row of the cell array
(`cell_array.last_mut().unwrap().push(cell)`). -/
def pushCell : List (List Nat) → Nat → List (List Nat)
  | [], c => [[c]]
  | [r], c => [r ++ [c]]
  | r :: rest, c => r :: pushCell rest c

/-- Start a new row (`cell_array.push(vec![])`). -/
def pushRow (rows : List (List Nat)) : List (List Nat) :=
  rows ++ [[]]

/-- Apply one decoded item `n` times (`for _ in 0..n`). -/
def applyN (rows : List (List Nat)) : Nat → RItem → List (List Nat)
  | 0, _ => rows
  | n + 1, .cell c => applyN (pushCell rows c) n (.cell c)
  | n + 1, .endRow => applyN (pushRow rows) n .endRow

/-- Process the items of a content pair in order, stopping at the first
parse error. -/
def applyItems : List CItem → List (List Nat) → Except String (List (List Nat))
  | [], rows => .ok rows
  | it :: rest, rows =>
      match parseContentItem it with
      | .error e => .error e
      | .ok (n, item) => applyItems rest (applyN rows n item)

/-- The mutable state of `from_rle`'s pair loop. -/
structure DecState : Type where
  header : Option RleHeader
  cxrle : Option CxrleHeader
  notes : List (List Char)
  cellArray : List (List Nat)
  deriving Repr, DecidableEq

/-- The initial state of `from_rle`: no headers, no notes, one empty row. -/
def initState : DecState :=
  ⟨none, none, [], [[]]⟩

/-- One iteration of `from_rle`'s loop over pairs: a second header or a
second CXRLE note is an error; comments accumulate; content items extend
the cell array. -/
def stepPair (st : DecState) : RlePair → Except String DecState
  | .header inners =>
      match st.header with
      | some _ => .error "Multiple RLE headers"
      | none =>
          match parseHeader inners with
          | .error e => .error e
          | .ok h => .ok { st with header := some h }
  | .note (.comment s) => .ok { st with notes := st.notes ++ [s] }
  | .note (.cxrle kvs) =>
      match st.cxrle with
      | some _ => .error "Multiple CXRLE headers"
      | none =>
          match parseCxrle kvs with
          | .error e => .error e
          | .ok cx => .ok { st with cxrle := some cx }
  | .content items =>
      match applyItems items st.cellArray with
      | .error e => .error e
      | .ok rows => .ok { st with cellArray := rows }

/-- The pair loop, threading the state through `Except`. -/
def runPairsFrom : List RlePair → Except String DecState → Except String DecState
  | [], e => e
  | p :: rest, e =>
      runPairsFrom rest
        (match e with
         | .error m => .error m
         | .ok st => stepPair st p)

/-- The writes of one RLE row: `x` increments per cell. -/
def writeRow (x y : Int) : List Nat → List ((Int × Int) × Nat)
  | [] => []
  | c :: rest => ((x, y), c) :: writeRow (x + 1) y rest

/-- The writes of the whole cell array: after each row `x` resets to
`x_start` and `y` decrements. -/
def writeRows (x0 : Int) : Int → List (List Nat) → List ((Int × Int) × Nat)
  | _, [] => []
  | y, row :: rest => writeRow x0 y row ++ writeRows x0 (y - 1) rest

/-- The write sequence of `from_rle`'s final loop: with a CXRLE header,
`x` starts at `pos.x` and the first row is written at
`y = pos.y * -1 - 1`; without one, `x` starts at `0` and the first row is
written at `y = -1` (the origin reflected). -/
def writesOf (cx : Option CxrleHeader) (rows : List (List Nat)) :
    List ((Int × Int) × Nat) :=
  match cx with
  | some c => writeRows c.pos.1 (-c.pos.2 - 1) rows
  | none => writeRows 0 (-1) rows

/-- Apply the write sequence to a fresh tree. -/
def buildGrid (ws : List ((Int × Int) × Nat)) : Grid :=
  ws.foldl (fun g w => setCellG g w.1 w.2) []

/-- The decode result: generation count and tree (`NdAutomaton<Dim2D>`). -/
structure NdAutomaton2D : Type where
  generations : Int
  tree : Grid
  deriving Repr, DecidableEq

/-- The tail of `from_rle` after the pair loop: require a header
(`header.ok_or("Missing RLE header")?`), then write the cell array into a
fresh tree, row by row; the generation count comes from the CXRLE header
when present. -/
def finishRle : Except String DecState → Except String NdAutomaton2D
  | .error m => .error m
  | .ok st =>
      match st.header with
      | none => .error "Missing RLE header"
      | some _ =>
          .ok ⟨(match st.cxrle with | some c => c.gen | none => 0),
               buildGrid (writesOf st.cxrle st.cellArray)⟩

/-- `from_rle` over the token pairs: run the loop, then finish. -/
def fromRlePairs (pairs : List RlePair) : Except String NdAutomaton2D :=
  finishRle (runPairsFrom pairs (.ok initState))

/-! ## The tokenizer

Modelled from the spec (the pest grammar `rle.pest` is not under `src/`):
a file is a sequence of lines; blank lines are skipped; a `#` line is a
note (a `CXRLE ` prefix introduces space-separated `key=value` pairs);
a line starting with `x` is the header `x = <int>, y = <int>[, rule =
<token>]`; any other line is content, a sequence of `[count]tag` items with
arbitrary interior whitespace.  `!` ends the pattern: the rest of the
content is ignored (notes after `!` are still notes). -/

/-- Whitespace characters tolerated between tokens. -/
def isWsCh (c : Char) : Bool :=
  decide (c = ' ') || decide (c = '\t') || decide (c = '\r')

/-- Drop leading whitespace. -/
def trimLead (cs : List Char) : List Char :=
  cs.dropWhile isWsCh

/-- Drop leading and trailing whitespace. -/
def trimBoth (cs : List Char) : List Char :=
  ((cs.dropWhile isWsCh).reverse.dropWhile isWsCh).reverse

/-- A blank line contains only whitespace. -/
def isBlankLine (cs : List Char) : Bool :=
  (trimLead cs).isEmpty

/-- Parse a header line into its inner tokens: split on commas into
`x = <v>`, `y = <v>` and optionally `rule = <v>` parts. -/
def lineToHeaderInners (cs : List Char) : Option (List (List Char)) :=
  let parts := splitOnCh ',' cs
  let kv := fun (p : List Char) (key : List Char) =>
    match splitOnCh '=' p with
    | [k, v] => if trimBoth k = key then some (trimBoth v) else none
    | _ => none
  match parts with
  | [p0, p1] =>
      match kv p0 "x".data, kv p1 "y".data with
      | some xv, some yv => some [xv, yv]
      | _, _ => none
  | [p0, p1, p2] =>
      match kv p0 "x".data, kv p1 "y".data, kv p2 "rule".data with
      | some xv, some yv, some rv => some [xv, yv, rv]
      | _, _, _ => none
  | _ => none

/-- Whether a character starts a two-character cell-state token. -/
def isHiCh (c : Char) : Bool :=
  decide ('p' ≤ c) && decide (c ≤ 'y')

/-- Whether a character is a complete one-character cell-state token. -/
def isLoCh (c : Char) : Bool :=
  decide (c = 'b') || decide (c = '.') || decide (c = 'o')
    || (decide ('A' ≤ c) && decide (c ≤ 'X'))

/-- Attach a decoded tag (and the remaining characters) to an optional
count, as one step of content tokenization.  `none` means the tag is
invalid; the boolean marks `!` (end of pattern). -/
def tagStep (cnt : Option (List Char)) :
    List Char → Option ((CItem × Bool) × List Char)
  | [] => none
  | t :: rest =>
      if t = '$' then some ((⟨cnt, .endRow⟩, false), rest)
      else if t = '!' then some ((⟨cnt, .endRow⟩, true), rest)
      else if isHiCh t then
        match rest with
        | [] => none
        | t2 :: rest' => some ((⟨cnt, .state [t, t2]⟩, false), rest')
      else if isLoCh t then some ((⟨cnt, .state [t]⟩, false), rest)
      else none

/-- Tokenize a content line into items; the boolean is whether `!` was
reached (in which case the rest of the line is ignored).  A count must be
followed by its tag on the same line.  The fuel argument makes the
recursion structural: every step consumes at least one character, so the
initial fuel `cs.length` supplied by `tokenizeContent` is never exhausted. -/
def tokenizeContentF : Nat → List Char → Except String (List CItem × Bool)
  | _, [] => .ok ([], false)
  | 0, _ :: _ => .error "RLE parse error"
  | f + 1, c :: rest =>
      if isWsCh c then tokenizeContentF f rest
      else if isDigitCh c then
        let digits := c :: rest.takeWhile isDigitCh
        match tagStep (some digits) (rest.dropWhile isDigitCh) with
        | none => .error "RLE parse error"
        | some ((_, true), _) => .ok ([], true)
        | some ((it, false), rest') =>
            match tokenizeContentF f rest' with
            | .error e => .error e
            | .ok (items, bang) => .ok (it :: items, bang)
      else
        match tagStep none (c :: rest) with
        | none => .error "RLE parse error"
        | some ((_, true), _) => .ok ([], true)
        | some ((it, false), rest') =>
            match tokenizeContentF f rest' with
            | .error e => .error e
            | .ok (items, bang) => .ok (it :: items, bang)

/-- Tokenize a content line with sufficient fuel. -/
def tokenizeContent (cs : List Char) : Except String (List CItem × Bool) :=
  tokenizeContentF cs.length cs

/-- The classification of one line of the file. -/
inductive LineClass : Type where
  | blank : LineClass
  | note (p : NotePair) : LineClass
  | headerLine (inners : List (List Char)) : LineClass
  | badHeader : LineClass
  | contentLine : LineClass
  deriving Repr, DecidableEq

/-- Classify a line: blank, `#` note (CXRLE or comment), header (a line
starting with `x`; failing the header shape is a parse error), or content. -/
def classifyLine (l : List Char) : LineClass :=
  if isBlankLine l then .blank
  else
    match trimLead l with
    | '#' :: content =>
        if content.take 6 = "CXRLE ".data then
          .note (.cxrle
            (((splitOnCh ' ' (content.drop 6)).filter
                (fun w => !w.isEmpty)).map (splitOnCh '=')))
        else .note (.comment content)
    | 'x' :: _ =>
        match lineToHeaderInners (trimLead l) with
        | none => .badHeader
        | some inners => .headerLine inners
    | _ => .contentLine

/-- Whether a line is a well-formed RLE header line. -/
def isHeaderLine (l : List Char) : Bool :=
  match classifyLine l with
  | .headerLine _ => true
  | _ => false

/-- Classify the lines of a file into token pairs; the boolean records
whether `!` has been seen (content after it is ignored). -/
def tokenizeLines : List (List Char) → Bool → Except String (List RlePair)
  | [], _ => .ok []
  | l :: rest, bang =>
      match classifyLine l with
      | .blank => tokenizeLines rest bang
      | .note p =>
          match tokenizeLines rest bang with
          | .error e => .error e
          | .ok ps => .ok (.note p :: ps)
      | .headerLine inners =>
          match tokenizeLines rest bang with
          | .error e => .error e
          | .ok ps => .ok (.header inners :: ps)
      | .badHeader => .error "RLE parse error"
      | .contentLine =>
          if bang then tokenizeLines rest bang
          else
            match tokenizeContent l with
            | .error e => .error e
            | .ok (items, bang') =>
                match tokenizeLines rest (bang || bang') with
                | .error e => .error e
                | .ok ps => .ok (.content items :: ps)

/-- Decode a file given as a list of lines. -/
def fromRleLines (lines : List (List Char)) : Except String NdAutomaton2D :=
  match tokenizeLines lines false with
  | .error e => .error e
  | .ok pairs => fromRlePairs pairs

/-- Decode a Golly Extended RLE string (`RleEncode::from_rle`). -/
def fromRleString (s : String) : Except String NdAutomaton2D :=
  fromRleLines (splitOnCh '\n' s.data)

/-! ### Positions of the decoded cells -/

theorem mem_writeRow (row : List Nat) :
    ∀ (x y : Int) (w : (Int × Int) × Nat),
      w ∈ writeRow x y row ↔
        ∃ j c, row.get? j = some c ∧ w = ((x + (j : Int), y), c) := by
  induction row with
  | nil => intro x y w; simp [writeRow]
  | cons c0 rest ih =>
      intro x y w
      simp only [writeRow, List.mem_cons]
      constructor
      · intro h
        rcases h with h | h
        · exact ⟨0, c0, rfl, by simpa using h⟩
        · rcases (ih (x + 1) y w).mp h with ⟨j, c, hj, hw⟩
          refine ⟨j + 1, c, by simpa using hj, ?_⟩
          rw [hw]
          congr 1
          push_cast
          ring_nf
      · rintro ⟨j, c, hj, hw⟩
        cases j with
        | zero =>
            left
            simp at hj
            subst hj
            simpa using hw
        | succ j =>
            right
            refine (ih (x + 1) y w).mpr ⟨j, c, by simpa using hj, ?_⟩
            rw [hw]
            congr 1
            push_cast
            ring_nf

theorem mem_writeRows (rows : List (List Nat)) :
    ∀ (x0 y : Int) (w : (Int × Int) × Nat),
      w ∈ writeRows x0 y rows ↔
        ∃ i r j c, rows.get? i = some r ∧ r.get? j = some c ∧
          w = ((x0 + (j : Int), y - (i : Int)), c) := by
  induction rows with
  | nil => intro x0 y w; simp [writeRows]
  | cons row rest ih =>
      intro x0 y w
      simp only [writeRows, List.mem_append]
      constructor
      · intro h
        rcases h with h | h
        · rcases (mem_writeRow row x0 y w).mp h with ⟨j, c, hj, hw⟩
          exact ⟨0, row, j, c, rfl, hj, by simpa using hw⟩
        · rcases (ih x0 (y - 1) w).mp h with ⟨i, r, j, c, hi, hj, hw⟩
          refine ⟨i + 1, r, j, c, by simpa using hi, hj, ?_⟩
          rw [hw]
          congr 1
          push_cast
          ring_nf
      · rintro ⟨i, r, j, c, hi, hj, hw⟩
        cases i with
        | zero =>
            left
            have hr : row = r := by simpa using hi
            subst hr
            exact (mem_writeRow _ x0 y w).mpr ⟨j, c, hj, by simpa using hw⟩
        | succ i =>
            right
            refine (ih x0 (y - 1) w).mpr ⟨i, r, j, c, by simpa using hi, hj, ?_⟩
            rw [hw]
            congr 1
            push_cast
            ring_nf

/-! ### Error behaviour of the pair loop -/

theorem runPairsFrom_err (ps : List RlePair) (m : String) :
    runPairsFrom ps (.error m) = .error m := by
  induction ps with
  | nil => rfl
  | cons p rest ih => simpa [runPairsFrom] using ih

theorem runPairsFrom_append (xs ys : List RlePair) (e : Except String DecState) :
    runPairsFrom (xs ++ ys) e = runPairsFrom ys (runPairsFrom xs e) := by
  induction xs generalizing e with
  | nil => rfl
  | cons p rest ih => simp [runPairsFrom, ih]

theorem stepPair_header_of_not (st : DecState) (p : RlePair) (st' : DecState)
    (hp : p.isHeaderP = false) (h : stepPair st p = .ok st') :
    st'.header = st.header := by
  cases p with
  | header inners => simp [RlePair.isHeaderP] at hp
  | note n =>
      cases n with
      | comment s => cases h; rfl
      | cxrle kvs =>
          simp only [stepPair] at h
          cases hc : st.cxrle with
          | some c => rw [hc] at h; cases h
          | none =>
              rw [hc] at h
              cases hk : parseCxrle kvs with
              | error e => rw [hk] at h; cases h
              | ok cx => rw [hk] at h; cases h; rfl
  | content items =>
      simp only [stepPair] at h
      cases ha : applyItems items st.cellArray with
      | error e => rw [ha] at h; cases h
      | ok rows => rw [ha] at h; cases h; rfl

theorem runPairs_err_header_some (ps : List RlePair) :
    ∀ (st : DecState), st.header.isSome = true →
      1 ≤ ps.countP RlePair.isHeaderP →
      ∃ m, runPairsFrom ps (.ok st) = .error m := by
  induction ps with
  | nil =>
      intro st _ hc
      rw [List.countP_nil] at hc
      omega
  | cons p rest ih =>
      intro st hsome hc
      cases hh : p.isHeaderP with
      | true =>
          cases p with
          | header inners =>
              cases hst : st.header with
              | none => rw [hst] at hsome; cases hsome
              | some h0 =>
                  refine ⟨"Multiple RLE headers", ?_⟩
                  simp only [runPairsFrom, stepPair, hst]
                  exact runPairsFrom_err rest _
          | note n => simp [RlePair.isHeaderP] at hh
          | content items => simp [RlePair.isHeaderP] at hh
      | false =>
          have hc' : 1 ≤ rest.countP RlePair.isHeaderP := by
            rw [List.countP_cons, hh] at hc
            simpa using hc
          cases hs : stepPair st p with
          | error m =>
              refine ⟨m, ?_⟩
              simp only [runPairsFrom, hs]
              exact runPairsFrom_err rest m
          | ok st' =>
              have hpres := stepPair_header_of_not st p st' hh hs
              have hsome' : st'.header.isSome = true := by rw [hpres]; exact hsome
              rcases ih st' hsome' hc' with ⟨m, hm⟩
              refine ⟨m, ?_⟩
              simpa [runPairsFrom, hs] using hm

theorem runPairs_err_two_headers (ps : List RlePair) :
    ∀ (st : DecState), 2 ≤ ps.countP RlePair.isHeaderP →
      ∃ m, runPairsFrom ps (.ok st) = .error m := by
  induction ps with
  | nil =>
      intro st hc
      rw [List.countP_nil] at hc
      omega
  | cons p rest ih =>
      intro st hc
      cases hh : p.isHeaderP with
      | true =>
          cases p with
          | header inners =>
              cases hst : st.header with
              | some h0 =>
                  refine ⟨"Multiple RLE headers", ?_⟩
                  simp only [runPairsFrom, stepPair, hst]
                  exact runPairsFrom_err rest _
              | none =>
                  have hc' : 1 ≤ rest.countP RlePair.isHeaderP := by
                    rw [List.countP_cons, hh, if_pos rfl] at hc
                    omega
                  cases hph : parseHeader inners with
                  | error m =>
                      refine ⟨m, ?_⟩
                      simp only [runPairsFrom, stepPair, hst, hph]
                      exact runPairsFrom_err rest m
                  | ok h1 =>
                      have := runPairs_err_header_some rest
                        { st with header := some h1 } (by simp) hc'
                      rcases this with ⟨m, hm⟩
                      refine ⟨m, ?_⟩
                      simpa [runPairsFrom, stepPair, hst, hph] using hm
          | note n => simp [RlePair.isHeaderP] at hh
          | content items => simp [RlePair.isHeaderP] at hh
      | false =>
          have hc' : 2 ≤ rest.countP RlePair.isHeaderP := by
            rw [List.countP_cons, hh] at hc
            simpa using hc
          cases hs : stepPair st p with
          | error m =>
              refine ⟨m, ?_⟩
              simp only [runPairsFrom, hs]
              exact runPairsFrom_err rest m
          | ok st' =>
              rcases ih st' hc' with ⟨m, hm⟩
              refine ⟨m, ?_⟩
              simpa [runPairsFrom, hs] using hm

theorem runPairs_no_header (ps : List RlePair) :
    ∀ (st : DecState), (∀ p ∈ ps, p.isHeaderP = false) →
      (∃ m, runPairsFrom ps (.ok st) = .error m) ∨
      (∃ st', runPairsFrom ps (.ok st) = .ok st' ∧ st'.header = st.header) := by
  induction ps with
  | nil => intro st _; exact Or.inr ⟨st, rfl, rfl⟩
  | cons p rest ih =>
      intro st hall
      have hp : p.isHeaderP = false := hall p (List.mem_cons_self _ _)
      cases hs : stepPair st p with
      | error m =>
          left
          refine ⟨m, ?_⟩
          simp only [runPairsFrom, hs]
          exact runPairsFrom_err rest m
      | ok st' =>
          have hpres := stepPair_header_of_not st p st' hp hs
          rcases ih st' (fun q hq => hall q (List.mem_cons_of_mem _ hq)) with
            ⟨m, hm⟩ | ⟨st'', hst'', hh⟩
          · left
            refine ⟨m, ?_⟩
            simpa [runPairsFrom, hs] using hm
          · right
            refine ⟨st'', ?_, ?_⟩
            · simpa [runPairsFrom, hs] using hst''
            · rw [hh, hpres]

/-! ### Malformed CXRLE `Pos` values -/

theorem parseCxrleKvs_bad_pos (v : List Char)
    (hv : (splitOnCh ',' v).length ≠ 2) :
    ∀ (kpre kpost : List (List (List Char))) (pos : Int × Int) (gen : Int),
      ∃ m, parseCxrleKvs (kpre ++ ["Pos".data, v] :: kpost) pos gen = .error m := by
  intro kpre
  induction kpre with
  | nil =>
      intro kpost pos gen
      refine ⟨"Invalid CXRLE Pos", ?_⟩
      cases h0 : (splitOnCh ',' v)[0]? with
      | none => simp [parseCxrleKvs, h0]
      | some c1 =>
          cases hp1 : parseInt? c1 with
          | none => simp [parseCxrleKvs, h0, hp1]
          | some x =>
              cases h1 : (splitOnCh ',' v)[1]? with
              | none => simp [parseCxrleKvs, h0, hp1, h1]
              | some c2 =>
                  cases hp2 : parseInt? c2 with
                  | none => simp [parseCxrleKvs, h0, hp1, h1, hp2]
                  | some y =>
                      have h2 : 1 < (splitOnCh ',' v).length :=
                        (List.getElem?_eq_some.mp h1).1
                      have h3 : 3 ≤ (splitOnCh ',' v).length := by omega
                      simp [parseCxrleKvs, h0, hp1, h1, hp2, h3]
  | cons kv rest ih =>
      intro kpost pos gen
      cases hk0 : kv[0]? with
      | none => exact ⟨"Invalid CXRLE key", by simp [parseCxrleKvs, hk0]⟩
      | some k =>
          cases hk1 : kv[1]? with
          | none => exact ⟨"Invalid CXRLE value", by simp [parseCxrleKvs, hk0, hk1]⟩
          | some w =>
              by_cases hkp : k = "Pos".data
              · cases h0 : (splitOnCh ',' w)[0]? with
                | none => exact ⟨"Invalid CXRLE Pos", by simp [parseCxrleKvs, hk0, hk1, hkp, h0]⟩
                | some c1 =>
                    cases hp1 : parseInt? c1 with
                    | none =>
                        exact ⟨"Invalid CXRLE Pos",
                          by simp [parseCxrleKvs, hk0, hk1, hkp, h0, hp1]⟩
                    | some x =>
                        cases h1 : (splitOnCh ',' w)[1]? with
                        | none =>
                            exact ⟨"Invalid CXRLE Pos",
                              by simp [parseCxrleKvs, hk0, hk1, hkp, h0, hp1, h1]⟩
                        | some c2 =>
                            cases hp2 : parseInt? c2 with
                            | none =>
                                exact ⟨"Invalid CXRLE Pos",
                                  by simp [parseCxrleKvs, hk0, hk1, hkp, h0, hp1, h1, hp2]⟩
                            | some y =>
                                by_cases h3 : 3 ≤ (splitOnCh ',' w).length
                                · exact ⟨"Invalid CXRLE Pos",
                                    by simp [parseCxrleKvs, hk0, hk1, hkp, h0, hp1, h1, hp2, h3]⟩
                                · rcases ih kpost (x, y) gen with ⟨m, hm⟩
                                  refine ⟨m, ?_⟩
                                  rw [← hm]
                                  simp [parseCxrleKvs, hk0, hk1, hkp, h0, hp1, h1, hp2, h3]
              · by_cases hkg : k = "Gen".data
                · cases hpg : parseInt? w with
                  | none =>
                      exact ⟨"Invalid CXRLE Gen",
                        by simp [parseCxrleKvs, hk0, hk1, hkp, hkg, hpg]⟩
                  | some g =>
                      rcases ih kpost pos g with ⟨m, hm⟩
                      refine ⟨m, ?_⟩
                      rw [← hm]
                      simp [parseCxrleKvs, hk0, hk1, hkp, hkg, hpg]
                · exact ⟨"Unknown CXRLE string", by simp [parseCxrleKvs, hk0, hk1, hkp, hkg]⟩

/-! ### Invariance in the header values -/

/-- Two loop states that agree everywhere except possibly in the value
stored inside `header` (they agree on whether a header was seen). -/
def SameH (s1 s2 : DecState) : Prop :=
  s1.header.isSome = s2.header.isSome ∧ s1.cxrle = s2.cxrle ∧
  s1.notes = s2.notes ∧ s1.cellArray = s2.cellArray

/-- Relation on loop outcomes: equal errors, or states related by `SameH`. -/
def SameHE (e1 e2 : Except String DecState) : Prop :=
  (∃ m, e1 = .error m ∧ e2 = .error m) ∨
  (∃ t1 t2, e1 = .ok t1 ∧ e2 = .ok t2 ∧ SameH t1 t2)

theorem stepPair_sameH {s1 s2 : DecState} (h : SameH s1 s2) (p : RlePair) :
    SameHE (stepPair s1 p) (stepPair s2 p) := by
  obtain ⟨hh, hcx, hn, hca⟩ := h
  cases p with
  | header inners =>
      cases h1 : s1.header with
      | some a =>
          cases h2 : s2.header with
          | some b => exact Or.inl ⟨"Multiple RLE headers", by simp [stepPair, h1, h2]⟩
          | none => rw [h1, h2] at hh; simp at hh
      | none =>
          cases h2 : s2.header with
          | some b => rw [h1, h2] at hh; simp at hh
          | none =>
              cases hph : parseHeader inners with
              | error m => exact Or.inl ⟨m, by simp [stepPair, h1, h2, hph]⟩
              | ok hd =>
                  refine Or.inr ⟨{ s1 with header := some hd },
                    { s2 with header := some hd },
                    by simp [stepPair, h1, hph], by simp [stepPair, h2, hph], ?_⟩
                  exact ⟨by simp, by simpa using hcx, by simpa using hn, by simpa using hca⟩
  | note n =>
      cases n with
      | comment s =>
          refine Or.inr ⟨{ s1 with notes := s1.notes ++ [s] },
            { s2 with notes := s2.notes ++ [s] }, rfl, rfl, ?_⟩
          exact ⟨by simpa using hh, by simpa using hcx, by simp [hn], by simpa using hca⟩
      | cxrle kvs =>
          cases h1 : s1.cxrle with
          | some a =>
              have h2 : s2.cxrle = some a := by rw [← hcx, h1]
              exact Or.inl ⟨"Multiple CXRLE headers", by simp [stepPair, h1, h2]⟩
          | none =>
              have h2 : s2.cxrle = none := by rw [← hcx, h1]
              cases hpc : parseCxrle kvs with
              | error m => exact Or.inl ⟨m, by simp [stepPair, h1, h2, hpc]⟩
              | ok cx =>
                  refine Or.inr ⟨{ s1 with cxrle := some cx },
                    { s2 with cxrle := some cx },
                    by simp [stepPair, h1, hpc], by simp [stepPair, h2, hpc], ?_⟩
                  exact ⟨by simpa using hh, by simp, by simpa using hn, by simpa using hca⟩
  | content items =>
      cases ha : applyItems items s1.cellArray with
      | error m =>
          have ha2 : applyItems items s2.cellArray = .error m := by rw [← hca, ha]
          exact Or.inl ⟨m, by simp [stepPair, ha, ha2]⟩
      | ok rows =>
          have ha2 : applyItems items s2.cellArray = .ok rows := by rw [← hca, ha]
          refine Or.inr ⟨{ s1 with cellArray := rows }, { s2 with cellArray := rows },
            by simp [stepPair, ha], by simp [stepPair, ha2], ?_⟩
          exact ⟨by simpa using hh, by simpa using hcx, by simpa using hn, by simp⟩

theorem runPairsFrom_sameHE (ps : List RlePair) :
    ∀ {e1 e2 : Except String DecState}, SameHE e1 e2 →
      SameHE (runPairsFrom ps e1) (runPairsFrom ps e2) := by
  induction ps with
  | nil => intro e1 e2 h; exact h
  | cons p rest ih =>
      intro e1 e2 h
      rcases h with ⟨m, he1, he2⟩ | ⟨t1, t2, he1, he2, ht⟩
      · subst he1; subst he2
        exact ih (Or.inl ⟨m, rfl, rfl⟩)
      · subst he1; subst he2
        exact ih (stepPair_sameH ht p)

theorem finishRle_sameHE {e1 e2 : Except String DecState} (h : SameHE e1 e2) :
    finishRle e1 = finishRle e2 := by
  rcases h with ⟨m, he1, he2⟩ | ⟨t1, t2, he1, he2, hh, hcx, hn, hca⟩
  · rw [he1, he2]
  · subst he1; subst he2
    cases h1 : t1.header with
    | none =>
        cases h2 : t2.header with
        | none => simp [finishRle, h1, h2]
        | some b => rw [h1, h2] at hh; simp at hh
    | some a =>
        cases h2 : t2.header with
        | none => rw [h1, h2] at hh; simp at hh
        | some b => simp [finishRle, h1, h2, hcx, hca]

/-! ### Lifting the pair-level facts through the tokenizer -/

theorem tokenizeLines_no_header (lines : List (List Char)) :
    ∀ (bang : Bool), (∀ l ∈ lines, isHeaderLine l = false) →
      (∃ m, tokenizeLines lines bang = .error m) ∨
      (∃ ps, tokenizeLines lines bang = .ok ps ∧
        ∀ p ∈ ps, p.isHeaderP = false) := by
  induction lines with
  | nil => intro bang _; exact Or.inr ⟨[], rfl, by intro p hp; cases hp⟩
  | cons l rest ih =>
      intro bang hall
      have hl : isHeaderLine l = false := hall l (List.mem_cons_self _ _)
      have hrest : ∀ l' ∈ rest, isHeaderLine l' = false :=
        fun l' h' => hall l' (List.mem_cons_of_mem _ h')
      cases hc : classifyLine l with
      | blank =>
          rcases ih bang hrest with ⟨m, hm⟩ | ⟨ps, hps, hok⟩
          · exact Or.inl ⟨m, by simp [tokenizeLines, hc, hm]⟩
          · exact Or.inr ⟨ps, by simp [tokenizeLines, hc, hps], hok⟩
      | note p =>
          rcases ih bang hrest with ⟨m, hm⟩ | ⟨ps, hps, hok⟩
          · exact Or.inl ⟨m, by simp [tokenizeLines, hc, hm]⟩
          · refine Or.inr ⟨.note p :: ps, by simp [tokenizeLines, hc, hps], ?_⟩
            intro q hq
            rcases List.mem_cons.mp hq with h | h
            · subst h; rfl
            · exact hok q h
      | headerLine inners =>
          rw [isHeaderLine, hc] at hl
          cases hl
      | badHeader =>
          exact Or.inl ⟨"RLE parse error", by simp [tokenizeLines, hc]⟩
      | contentLine =>
          cases bang with
          | true =>
              rcases ih true hrest with ⟨m, hm⟩ | ⟨ps, hps, hok⟩
              · exact Or.inl ⟨m, by simp [tokenizeLines, hc, hm]⟩
              · exact Or.inr ⟨ps, by simp [tokenizeLines, hc, hps], hok⟩
          | false =>
              cases ht : tokenizeContent l with
              | error m => exact Or.inl ⟨m, by simp [tokenizeLines, hc, ht]⟩
              | ok ib =>
                  rcases ih ib.2 hrest with ⟨m, hm⟩ | ⟨ps, hps, hok⟩
                  · exact Or.inl ⟨m, by simp [tokenizeLines, hc, ht, hm]⟩
                  · refine Or.inr ⟨.content ib.1 :: ps,
                      by simp [tokenizeLines, hc, ht, hps], ?_⟩
                    intro q hq
                    rcases List.mem_cons.mp hq with h | h
                    · subst h; rfl
                    · exact hok q h

theorem tokenizeLines_header_count (lines : List (List Char)) :
    ∀ (bang : Bool) (ps : List RlePair), tokenizeLines lines bang = .ok ps →
      lines.countP isHeaderLine ≤ ps.countP RlePair.isHeaderP := by
  induction lines with
  | nil =>
      intro bang ps h
      cases h
      simp [List.countP_nil]
  | cons l rest ih =>
      intro bang ps h
      rw [List.countP_cons]
      cases hc : classifyLine l with
      | blank =>
          rw [tokenizeLines, hc] at h
          have hl : isHeaderLine l = false := by rw [isHeaderLine, hc]
          rw [hl]
          have := ih bang ps h
          simpa using this
      | note p =>
          rw [tokenizeLines, hc] at h
          have hl : isHeaderLine l = false := by rw [isHeaderLine, hc]
          rw [hl]
          cases ht : tokenizeLines rest bang with
          | error m => rw [ht] at h; cases h
          | ok ps' =>
              rw [ht] at h
              cases h
              have := ih bang ps' ht
              simp only [List.countP_cons]
              simp [RlePair.isHeaderP]
              omega
      | headerLine inners =>
          rw [tokenizeLines, hc] at h
          have hl : isHeaderLine l = true := by rw [isHeaderLine, hc]
          rw [hl]
          cases ht : tokenizeLines rest bang with
          | error m => rw [ht] at h; cases h
          | ok ps' =>
              rw [ht] at h
              cases h
              have := ih bang ps' ht
              simp only [List.countP_cons]
              simp [RlePair.isHeaderP]
              omega
      | badHeader =>
          rw [tokenizeLines, hc] at h
          cases h
      | contentLine =>
          have hl : isHeaderLine l = false := by rw [isHeaderLine, hc]
          rw [hl]
          rw [tokenizeLines, hc] at h
          cases bang with
          | true =>
              have := ih true ps h
              simpa using this
          | false =>
              simp only [Bool.false_eq_true, if_false] at h
              cases ht : tokenizeContent l with
              | error m => rw [ht] at h; cases h
              | ok ib =>
                  obtain ⟨items, bang2⟩ := ib
                  rw [ht] at h
                  dsimp only at h
                  cases ht2 : tokenizeLines rest (false || bang2) with
                  | error m => rw [ht2] at h; cases h
                  | ok ps' =>
                      rw [ht2] at h
                      cases h
                      have := ih (false || bang2) ps' ht2
                      simp only [List.countP_cons]
                      simp [RlePair.isHeaderP]
                      omega

end Rle

/-- Claim C4: for every `u8` value `v`, decoding the RLE encoding of `v`
yields `v`; the encoding is a canonical one-character token for `v ≤ 24`
and a two-character token for `v ≥ 25`; and the boundary values encode to
the listed tokens. -/
theorem claim_C4_cell_codec (v : Nat) (hv : v < 256) :
    Rle.fromStrU8 (Rle.encodeCell v) = some v ∧
    (Rle.encodeCell v).length = (if v ≤ 24 then 1 else 2) ∧
    (v = 0 → Rle.encodeCell v = ['.']) ∧
    (v = 1 → Rle.encodeCell v = ['A']) ∧
    (v = 24 → Rle.encodeCell v = ['X']) ∧
    (v = 25 → Rle.encodeCell v = ['p', 'A']) ∧
    (v = 240 → Rle.encodeCell v = ['x', 'X']) ∧
    (v = 241 → Rle.encodeCell v = ['y', 'A']) ∧
    (v = 255 → Rle.encodeCell v = ['y', 'O']) := by
  revert hv
  revert v
  set_option maxRecDepth 4096 in decide

/-- Witness for claim C4 at the concrete input `v = 255`. -/
theorem claim_C4_witness :
    (255 : Nat) < 256 ∧ Rle.fromStrU8 (Rle.encodeCell 255) = some 255 :=
  ⟨by decide, (claim_C4_cell_codec 255 (by decide)).1⟩

/-- The CXRLE glider input of claim C5 (scenario S1; the `/` separators of
the claim text are line breaks). -/
def gliderInput : String :=
  "#CXRLE Pos=10,-15\n# Comment\nx = 3, y = 3, rule = Life\nbo$2bo$3o!"

/-- The tree produced by decoding `gliderInput`: the recorded writes, most
recent first (rows decode top RLE row first at `y = 14`). -/
def gliderGrid : Rle.Grid :=
  [((12, 12), 1), ((11, 12), 1), ((10, 12), 1), ((12, 13), 1), ((11, 13), 0),
   ((10, 13), 0), ((11, 14), 1), ((10, 14), 0)]

/-- The five live positions of the decoded glider. -/
def gliderLive : List (Int × Int) :=
  [(11, 14), (12, 13), (10, 12), (11, 12), (12, 12)]

/-- Claim C5: decoding the CXRLE glider succeeds with generation 0,
population 5, state 1 exactly at the five glider positions and state 0
everywhere else; and in general, with a CXRLE header the row `i`, column
`j` cell of the content is written at
`(pos.x + j, (pos.y * -1) - 1 - i)` — the first row at `y = -pos.y - 1`,
`x` starting at `pos.x` and incrementing per cell, each `$` resetting `x`
and decrementing `y`. -/
theorem claim_C5_glider_decode :
    Rle.fromRleString gliderInput = .ok ⟨0, gliderGrid⟩ ∧
    Rle.population gliderGrid = 5 ∧
    (∀ p ∈ gliderLive, Rle.getCellG gliderGrid p = 1) ∧
    (∀ p : Int × Int, p ∉ gliderLive → Rle.getCellG gliderGrid p = 0) ∧
    (∀ (cx : Rle.CxrleHeader) (rows : List (List Nat)) (w : (Int × Int) × Nat),
      w ∈ Rle.writesOf (some cx) rows ↔
        ∃ i r j c, rows.get? i = some r ∧ r.get? j = some c ∧
          w = ((cx.pos.1 + (j : Int), -cx.pos.2 - 1 - (i : Int)), c)) := by
  refine ⟨by rfl, by rfl, by decide, ?_, ?_⟩
  · intro p hp
    rcases p with ⟨x, y⟩
    by_cases h1 : ((12, 12) : Int × Int) = (x, y)
    · exact absurd (h1 ▸ (by decide : ((12, 12) : Int × Int) ∈ gliderLive)) hp
    by_cases h2 : ((11, 12) : Int × Int) = (x, y)
    · exact absurd (h2 ▸ (by decide : ((11, 12) : Int × Int) ∈ gliderLive)) hp
    by_cases h3 : ((10, 12) : Int × Int) = (x, y)
    · exact absurd (h3 ▸ (by decide : ((10, 12) : Int × Int) ∈ gliderLive)) hp
    by_cases h4 : ((12, 13) : Int × Int) = (x, y)
    · exact absurd (h4 ▸ (by decide : ((12, 13) : Int × Int) ∈ gliderLive)) hp
    by_cases h5 : ((11, 14) : Int × Int) = (x, y)
    · exact absurd (h5 ▸ (by decide : ((11, 14) : Int × Int) ∈ gliderLive)) hp
    by_cases h6 : ((11, 13) : Int × Int) = (x, y)
    · rw [← h6]; rfl
    by_cases h7 : ((10, 13) : Int × Int) = (x, y)
    · rw [← h7]; rfl
    by_cases h8 : ((10, 14) : Int × Int) = (x, y)
    · rw [← h8]; rfl
    simp [Rle.getCellG, gliderGrid, List.find?, h1, h2, h3, h4, h5, h6, h7, h8]
  · intro cx rows w
    exact Rle.mem_writeRows rows cx.pos.1 (-cx.pos.2 - 1) w

/-- Witness for claim C5 at concrete positions: `(11, 14)` is a live glider
cell with state 1, and `(0, 0)` is not a glider cell and has state 0. -/
theorem claim_C5_witness :
    ((11, 14) : Int × Int) ∈ gliderLive ∧ Rle.getCellG gliderGrid (11, 14) = 1 ∧
    ((0, 0) : Int × Int) ∉ gliderLive ∧ Rle.getCellG gliderGrid (0, 0) = 0 :=
  ⟨by decide, claim_C5_glider_decode.2.2.1 (11, 14) (by decide),
   by decide, claim_C5_glider_decode.2.2.2.1 (0, 0) (by decide)⟩

/-- Claim C10: without a CXRLE header the row `i`, column `j` cell of the
content is written at `(j, -1 - i)`: the first row at `y = -1` with `x`
starting at `0`, each `$` resetting `x` to `0` and decrementing `y`; hence
every written cell has `x ≥ 0` and `y ≤ -1`. -/
theorem claim_C10_no_cxrle_positions :
    ∀ (rows : List (List Nat)) (w : (Int × Int) × Nat),
      (w ∈ Rle.writesOf none rows ↔
        ∃ i r j c, rows.get? i = some r ∧ r.get? j = some c ∧
          w = (((j : Int), -1 - (i : Int)), c)) ∧
      (w ∈ Rle.writesOf none rows → 0 ≤ w.1.1 ∧ w.1.2 ≤ -1) := by
  intro rows w
  have hm := Rle.mem_writeRows rows 0 (-1) w
  constructor
  · rw [show Rle.writesOf none rows = Rle.writeRows 0 (-1) rows from rfl, hm]
    simp only [zero_add]
  · intro hw
    rcases hm.mp hw with ⟨i, r, j, c, hi, hj, hweq⟩
    subst hweq
    have hjn : (0 : Int) ≤ (j : Int) := Int.natCast_nonneg j
    have hin : (0 : Int) ≤ (i : Int) := Int.natCast_nonneg i
    constructor
    · simpa using hjn
    · simp only
      omega

/-- Witness for claim C10: the single write of the content `"A"` (one row,
one cell) lands at `(0, -1)`, which satisfies the bounds. -/
theorem claim_C10_witness :
    (((0, -1), 5) : (Int × Int) × Nat) ∈ Rle.writesOf none [[5]] ∧
    (0 : Int) ≤ 0 ∧ (-1 : Int) ≤ -1 := by
  have h := (claim_C10_no_cxrle_positions [[5]] ((0, -1), 5)).2
  have hmem : (((0, -1), 5) : (Int × Int) × Nat) ∈ Rle.writesOf none [[5]] := by
    simp [Rle.writesOf, Rle.writeRows, Rle.writeRow]
  exact ⟨hmem, (h hmem).1, (h hmem).2⟩

/-- Claim C8: `from_rle` returns an error (and produces no tree) for every
input without an `x = ..., y = ...` header line, for every input with two
RLE header lines, and for every input whose CXRLE `Pos` value has a number
of comma-separated components other than two (such as `Pos=1,2,3`); all of
these are errors returned to the caller, not crashes (the model functions
are total). -/
theorem claim_C8_malformed_inputs :
    (∀ lines : List (List Char), (∀ l ∈ lines, Rle.isHeaderLine l = false) →
      (Rle.fromRleLines lines).isOk = false) ∧
    (∀ lines : List (List Char), 2 ≤ lines.countP Rle.isHeaderLine →
      (Rle.fromRleLines lines).isOk = false) ∧
    (∀ (pre post : List Rle.RlePair) (kpre kpost : List (List (List Char)))
        (v : List Char), (Rle.splitOnCh ',' v).length ≠ 2 →
      (Rle.fromRlePairs
        (pre ++ .note (.cxrle (kpre ++ ["Pos".data, v] :: kpost)) :: post)).isOk
        = false) ∧
    (Rle.fromRleString "#CXRLE Pos=1,2,3\nx = 1, y = 1\no!").isOk = false := by
  refine ⟨?_, ?_, ?_, by rfl⟩
  · intro lines hall
    unfold Rle.fromRleLines
    rcases Rle.tokenizeLines_no_header lines false hall with ⟨m, hm⟩ | ⟨ps, hps, hok⟩
    · rw [hm]; rfl
    · rw [hps]
      dsimp only
      unfold Rle.fromRlePairs
      rcases Rle.runPairs_no_header ps Rle.initState hok with ⟨m, hm⟩ | ⟨st', hst', hh⟩
      · rw [hm]; rfl
      · rw [hst']
        have : st'.header = none := by rw [hh]; rfl
        simp only [Rle.finishRle, this]
        rfl
  · intro lines h2
    unfold Rle.fromRleLines
    cases ht : Rle.tokenizeLines lines false with
    | error m => rfl
    | ok ps =>
        have hc := Rle.tokenizeLines_header_count lines false ps ht
        have h2' : 2 ≤ ps.countP Rle.RlePair.isHeaderP := by omega
        rcases Rle.runPairs_err_two_headers ps Rle.initState h2' with ⟨m, hm⟩
        dsimp only
        unfold Rle.fromRlePairs
        rw [hm]
        rfl
  · intro pre post kpre kpost v hv
    unfold Rle.fromRlePairs
    rw [Rle.runPairsFrom_append]
    cases he : Rle.runPairsFrom pre (.ok Rle.initState) with
    | error m => rw [Rle.runPairsFrom_err]; rfl
    | ok st =>
        have hstep : ∃ m, Rle.stepPair st
            (.note (.cxrle (kpre ++ ["Pos".data, v] :: kpost))) = .error m := by
          cases hcx : st.cxrle with
          | some c => exact ⟨"Multiple CXRLE headers", by simp [Rle.stepPair, hcx]⟩
          | none =>
              rcases Rle.parseCxrleKvs_bad_pos v hv kpre kpost (0, 0) 0 with ⟨m, hm⟩
              refine ⟨m, ?_⟩
              simp only [Rle.stepPair, hcx, Rle.parseCxrle]
              rw [hm]
        rcases hstep with ⟨m, hm⟩
        simp only [Rle.runPairsFrom, hm]
        rw [Rle.runPairsFrom_err]
        rfl

/-- Witness for claim C8 at concrete inputs: the file consisting of the
single content line `o!` has no header line and fails to decode, and a
CXRLE note whose `Pos` value is `1,2,3` (three components) fails at the
pair level. -/
theorem claim_C8_witness :
    (∀ l ∈ ["o!".data], Rle.isHeaderLine l = false) ∧
    (Rle.fromRleLines ["o!".data]).isOk = false ∧
    (Rle.splitOnCh ',' ("1,2,3".data)).length ≠ 2 ∧
    (Rle.fromRlePairs [.note (.cxrle [["Pos".data, "1,2,3".data]])]).isOk = false := by
  refine ⟨by decide, claim_C8_malformed_inputs.1 ["o!".data] (by decide), by decide, ?_⟩
  have := claim_C8_malformed_inputs.2.2.1 [] [] [] [] ("1,2,3".data) (by decide)
  simpa using this

/-- Claim C9: the decoded tree is determined solely by the content and the
CXRLE position — the header's `x` and `y` (and rule) values impose no
constraint.  Two pair streams that differ only in the header pair (both
parsing successfully) decode identically, and content exceeding the
declared dimensions (here `x = 1, y = 1` with a 2-by-2 content block) is
written in full without an error. -/
theorem claim_C9_header_dims_ignored :
    (∀ (pre post : List Rle.RlePair) (i1 i2 : List (List Char))
        (h1 h2 : Rle.RleHeader),
      Rle.parseHeader i1 = .ok h1 → Rle.parseHeader i2 = .ok h2 →
      Rle.fromRlePairs (pre ++ .header i1 :: post) =
        Rle.fromRlePairs (pre ++ .header i2 :: post)) ∧
    Rle.fromRleString "x = 1, y = 1\noo$oo!" =
      .ok ⟨0, [((1, -2), 1), ((0, -2), 1), ((1, -1), 1), ((0, -1), 1)]⟩ := by
  refine ⟨?_, by rfl⟩
  intro pre post i1 i2 h1 h2 hp1 hp2
  unfold Rle.fromRlePairs
  rw [Rle.runPairsFrom_append, Rle.runPairsFrom_append]
  cases he : Rle.runPairsFrom pre (.ok Rle.initState) with
  | error m =>
      rw [Rle.runPairsFrom_err, Rle.runPairsFrom_err]
  | ok st =>
      cases hh : st.header with
      | some a =>
          have e1 : Rle.stepPair st (.header i1) = .error "Multiple RLE headers" := by
            simp [Rle.stepPair, hh]
          have e2 : Rle.stepPair st (.header i2) = .error "Multiple RLE headers" := by
            simp [Rle.stepPair, hh]
          simp only [Rle.runPairsFrom, e1, e2]
      | none =>
          have e1 : Rle.stepPair st (.header i1) = .ok { st with header := some h1 } := by
            simp [Rle.stepPair, hh, hp1]
          have e2 : Rle.stepPair st (.header i2) = .ok { st with header := some h2 } := by
            simp [Rle.stepPair, hh, hp2]
          simp only [Rle.runPairsFrom, e1, e2]
          apply Rle.finishRle_sameHE
          apply Rle.runPairsFrom_sameHE
          exact Or.inr ⟨_, _, rfl, rfl, by simp, by simp, by simp, by simp⟩

/-- Witness for claim C9: the headers `x = 3, y = 3` and `x = 9, y = 1`
both parse, and swapping one for the other leaves the decode of a one-cell
content block unchanged. -/
theorem claim_C9_witness :
    Rle.parseHeader ["3".data, "3".data] = .ok ⟨3, 3, none⟩ ∧
    Rle.parseHeader ["9".data, "1".data] = .ok ⟨9, 1, none⟩ ∧
    Rle.fromRlePairs ([] ++ .header ["3".data, "3".data] ::
        [.content [⟨none, .state ['o']⟩]]) =
      Rle.fromRlePairs ([] ++ .header ["9".data, "1".data] ::
        [.content [⟨none, .state ['o']⟩]]) :=
  ⟨by rfl, by rfl,
   claim_C9_header_dims_ignored.1 [] [.content [⟨none, .state ['o']⟩]]
     ["3".data, "3".data] ["9".data, "1".data] ⟨3, 3, none⟩ ⟨9, 1, none⟩
     (by rfl) (by rfl)⟩

namespace Cache

/-! ## The interning pool of `src/automaton/space/ndtree/cache.rs`

`NdTreeCache` holds a weak hash-set of interned nodes and a memo vector of
empty nodes per layer.  The model makes pointers explicit: the store is the
list of all interned nodes ever created, a "pointer" is an index into the
store, and pointer equality is equality of indices.  `get_node` looks a
branch vector up by structural equality and returns the existing index on a
hit (the same `Rc`), or appends a fresh node on a miss.  (Weak-reference
eviction removes only entries that can never be observed again, so it is
not modelled.)  `set_cell` is the cache-threading write of
`ndtree/node_old.rs`. -/

/-- A branch of an interned node: a leaf cell or a pointer to a subnode
(`NdTreeBranch`). -/
inductive CBranch : Type where
  | leaf (cell : Nat) : CBranch
  | node (id : Nat) : CBranch
  deriving Repr, DecidableEq

/-- An interned node: its (derived) layer and its branches. -/
structure CNode : Type where
  layer : Nat
  branches : List CBranch
  deriving Repr, DecidableEq

/-- The cache: the store of interned nodes and the `empty_nodes` memo
(the element at index `N` is the empty node at layer `N + 1`). -/
structure CacheSt : Type where
  store : List CNode
  emptyMemo : List Nat
  deriving Repr, DecidableEq

/-- A fresh cache (`NdTreeCache::new`). -/
def emptyCache : CacheSt := ⟨[], []⟩

/-- Dereference a pointer.  Out-of-range indices (impossible for pointers
obtained from this cache) give a dummy node. -/
def nodeAt (s : List CNode) (i : Nat) : CNode :=
  (s.get? i).getD ⟨0, []⟩

/-- The layer of a branch: leaves sit at layer 0, node branches at their
node's layer. -/
def cbranchLayer (s : List CNode) : CBranch → Nat
  | .leaf _ => 0
  | .node i => (nodeAt s i).layer

/-- The layer inferred from a branch vector (`branch_layers.next().unwrap()
+ 1` in `with_branches`; `NdBaseTreeNode::from` does the same). -/
def inferLayer (s : List CNode) (bs : List CBranch) : Nat :=
  cbranchLayer s (bs.headD (.leaf 0)) + 1

/-- `NdTreeCache::get_node`: look the branch vector up in the set; on a hit
return the cached node (the same pointer), on a miss intern a fresh node
and return it. -/
def getNode (c : CacheSt) (bs : List CBranch) : Nat × CacheSt :=
  match c.store.findIdx? (fun e => decide (e.branches = bs)) with
  | some i => (i, c)
  | none => (c.store.length, ⟨c.store ++ [⟨inferLayer c.store bs, bs⟩], c.emptyMemo⟩)

/-- `NdTreeCache::get_empty_node`: return the memoized empty node at the
given layer, or build it (recursing through `get_empty_branch` at
`layer - 1`) and push it onto the memo vector.  A request at layer 0 makes
the Rust code panic on the `usize` underflow `layer - 1`; the model mirrors
layer 1 there (`0 - 1 = 0` on `Nat`), and every use below requests
layer ≥ 1. -/
def getEmptyNode (d : Nat) : Nat → CacheSt → Nat × CacheSt
  | 0, c =>
      match c.emptyMemo.get? 0 with
      | some i => (i, c)
      | none =>
          let r := getNode c (List.replicate (2 ^ d) (.leaf 0))
          (r.1, ⟨r.2.store, r.2.emptyMemo ++ [r.1]⟩)
  | 1, c =>
      match c.emptyMemo.get? 0 with
      | some i => (i, c)
      | none =>
          let r := getNode c (List.replicate (2 ^ d) (.leaf 0))
          (r.1, ⟨r.2.store, r.2.emptyMemo ++ [r.1]⟩)
  | l + 2, c =>
      match c.emptyMemo.get? (l + 1) with
      | some i => (i, c)
      | none =>
          let rj := getEmptyNode d (l + 1) c
          let ri := getNode rj.2 (List.replicate (2 ^ d) (.node rj.1))
          (ri.1, ⟨ri.2.store, ri.2.emptyMemo ++ [ri.1]⟩)

/-- The layer stored for a pointer. -/
def storedLayer (c : CacheSt) (nid : Nat) : Nat :=
  (nodeAt c.store nid).layer

/-- `NdTreeNode::set_cell` of `node_old.rs` over the cache: copy the
branches, replace the branch at the node's branch index (a leaf is
overwritten; a subnode is rewritten recursively), and re-intern through
`get_node` (`with_branches`).  The branch index is the same bit-packing as
`get_branch_index` of `ndtree.rs`.  The fuel argument makes the recursion
structural; it is the node's layer, and since branches sit one layer lower
it is never exhausted on a well-formed cache.  The `none` arm is the Rust
panic on an out-of-range index, also unreachable. -/
def setCellC (d : Nat) : Nat → CacheSt → Nat → List Int → Nat → Nat × CacheSt
  | fuel, c, nid, pos, v =>
      let nd := nodeAt c.store nid
      let i := NdT.branchIdx nd.layer pos
      match nd.branches.get? i with
      | none => (nid, c)
      | some (.leaf _) => getNode c (nd.branches.set i (.leaf v))
      | some (.node cid) =>
          match fuel with
          | 0 => (nid, c)
          | f + 1 =>
              let r := setCellC d f c cid pos v
              getNode r.2 (nd.branches.set i (.node r.1))

/-- `set_cell` with the fuel drawn from the node's stored layer. -/
def setCellTop (d : Nat) (c : CacheSt) (nid : Nat) (pos : List Int) (v : Nat) :
    Nat × CacheSt :=
  setCellC d (storedLayer c nid) c nid pos v

/-- One `set_cell` call of a build sequence: the accumulator is the current
root and the cache. -/
def stepCall (d : Nat) (p : Nat × CacheSt) (call : List Int × Nat) : Nat × CacheSt :=
  setCellTop d p.2 p.1 call.1 call.2

/-- Build a tree from a fresh (empty) root at layer `L` by a sequence of
`set_cell` calls, threading one shared cache. -/
def buildSeq (d L : Nat) (calls : List (List Int × Nat)) (c : CacheSt) :
    Nat × CacheSt :=
  calls.foldl (stepCall d) (getEmptyNode d L c)

/-- Validity of a branch's pointers with respect to a store size. -/
def BranchOK (n : Nat) : CBranch → Prop
  | .leaf _ => True
  | .node i => i < n

/-- A well-formed cache: every stored branch pointer and every memo entry
points into the store.  Every cache reachable from `emptyCache` through
the operations above is well-formed. -/
def CacheOK (c : CacheSt) : Prop :=
  (∀ e ∈ c.store, ∀ b ∈ e.branches, BranchOK c.store.length b) ∧
  (∀ i ∈ c.emptyMemo, i < c.store.length)

/-- Store extension: the second cache's store extends the first's. -/
def Ext (c c' : CacheSt) : Prop :=
  ∃ t, c'.store = c.store ++ t

theorem Ext.refl (c : CacheSt) : Ext c c := ⟨[], by simp⟩

theorem Ext.trans {a b c : CacheSt} (h1 : Ext a b) (h2 : Ext b c) : Ext a c := by
  rcases h1 with ⟨t1, h1⟩
  rcases h2 with ⟨t2, h2⟩
  exact ⟨t1 ++ t2, by rw [h2, h1, List.append_assoc]⟩

theorem nodeAt_ext {s t : List CNode} {i : Nat} (h : i < s.length) :
    nodeAt (s ++ t) i = nodeAt s i := by
  unfold nodeAt
  rw [List.get?_eq_getElem?, List.get?_eq_getElem?, List.getElem?_append_left h]

theorem findIdx?_some_lt {p : CNode → Bool} :
    ∀ {l : List CNode} {i : Nat}, l.findIdx? p = some i → i < l.length := by
  intro l
  induction l with
  | nil => intro i h; simp [List.findIdx?] at h
  | cons a rest ih =>
      intro i h
      rw [List.findIdx?_cons] at h
      by_cases hp : p a
      · rw [if_pos hp] at h
        cases h
        simp
      · rw [if_neg hp, List.findIdx?_succ] at h
        cases hi : rest.findIdx? p with
        | none => rw [hi] at h; cases h
        | some j =>
            rw [hi] at h
            cases h
            have := ih hi
            simp
            omega

theorem findIdx?_append_left {p : CNode → Bool} {l : List CNode} {i : Nat}
    (t : List CNode) (h : l.findIdx? p = some i) :
    (l ++ t).findIdx? p = some i := by
  rw [List.findIdx?_append, h]
  rfl

theorem findIdx?_append_miss {p : CNode → Bool} {l : List CNode}
    (e : CNode) (t : List CNode) (hmiss : l.findIdx? p = none)
    (he : p e = true) :
    (l ++ e :: t).findIdx? p = some l.length := by
  rw [List.findIdx?_append, hmiss, List.findIdx?_cons, if_pos he]
  simp

/-! ### Behaviour of `get_node` -/

theorem getNode_ext (c : CacheSt) (bs : List CBranch) : Ext c (getNode c bs).2 := by
  unfold getNode
  cases h : c.store.findIdx? (fun e => decide (e.branches = bs)) with
  | some i => exact Ext.refl c
  | none => exact ⟨[⟨inferLayer c.store bs, bs⟩], rfl⟩

theorem getNode_memo (c : CacheSt) (bs : List CBranch) :
    (getNode c bs).2.emptyMemo = c.emptyMemo := by
  unfold getNode
  cases h : c.store.findIdx? (fun e => decide (e.branches = bs)) <;> rfl

theorem getNode_lt (c : CacheSt) (bs : List CBranch) :
    (getNode c bs).1 < (getNode c bs).2.store.length := by
  unfold getNode
  cases h : c.store.findIdx? (fun e => decide (e.branches = bs)) with
  | some i => exact findIdx?_some_lt h
  | none => simp

theorem getNode_stable (c : CacheSt) (bs : List CBranch) (c'' : CacheSt)
    (h : Ext (getNode c bs).2 c'') :
    getNode c'' bs = ((getNode c bs).1, c'') := by
  unfold getNode at h ⊢
  cases hf : c.store.findIdx? (fun e => decide (e.branches = bs)) with
  | some i =>
      rw [hf] at h
      rcases h with ⟨t, ht⟩
      rw [ht, findIdx?_append_left t hf]
  | none =>
      rw [hf] at h
      rcases h with ⟨t, ht⟩
      simp only at ht
      rw [ht, List.append_assoc, List.cons_append, List.nil_append,
        findIdx?_append_miss _ _ hf (by simp)]

theorem getNode_idem (c : CacheSt) (bs : List CBranch) :
    getNode (getNode c bs).2 bs = ((getNode c bs).1, (getNode c bs).2) :=
  getNode_stable c bs _ (Ext.refl _)

theorem BranchOK.mono {n m : Nat} {b : CBranch} (h : BranchOK n b) (hm : n ≤ m) :
    BranchOK m b := by
  cases b with
  | leaf _ => trivial
  | node i => exact lt_of_lt_of_le h hm

theorem getNode_cacheOK (c : CacheSt) (bs : List CBranch) (hok : CacheOK c)
    (hbs : ∀ b ∈ bs, BranchOK c.store.length b) : CacheOK (getNode c bs).2 := by
  unfold getNode
  cases h : c.store.findIdx? (fun e => decide (e.branches = bs)) with
  | some i => exact hok
  | none =>
      obtain ⟨hstore, hmemo⟩ := hok
      constructor
      · intro e he b hb
        simp only [List.length_append, List.length_cons, List.length_nil]
        rcases List.mem_append.mp he with he' | he'
        · exact (hstore e he' b hb).mono (by omega)
        · have : e = ⟨inferLayer c.store bs, bs⟩ := by simpa using he'
          subst this
          exact (hbs b hb).mono (by omega)
      · intro i hi
        simp only [List.length_append, List.length_cons, List.length_nil]
        have := hmemo i hi
        omega

theorem nodeAt_mem {s : List CNode} {i : Nat} (h : i < s.length) :
    nodeAt s i ∈ s := by
  unfold nodeAt
  cases hg : s.get? i with
  | none => rw [List.get?_eq_none] at hg; omega
  | some e =>
      have := List.get?_mem hg
      simpa using this

/-! ### Behaviour of `set_cell` over the cache -/

theorem setCellC_ext (d : Nat) :
    ∀ (f : Nat) (c : CacheSt) (nid : Nat) (pos : List Int) (v : Nat),
      Ext c (setCellC d f c nid pos v).2 ∧
      (setCellC d f c nid pos v).2.emptyMemo = c.emptyMemo := by
  intro f
  induction f with
  | zero =>
      intro c nid pos v
      rw [setCellC]
      cases hb : (nodeAt c.store nid).branches.get?
          (NdT.branchIdx (nodeAt c.store nid).layer pos) with
      | none => exact ⟨Ext.refl c, rfl⟩
      | some b =>
          cases b with
          | leaf cell => exact ⟨getNode_ext c _, getNode_memo c _⟩
          | node cid => exact ⟨Ext.refl c, rfl⟩
  | succ f ih =>
      intro c nid pos v
      rw [setCellC]
      cases hb : (nodeAt c.store nid).branches.get?
          (NdT.branchIdx (nodeAt c.store nid).layer pos) with
      | none => exact ⟨Ext.refl c, rfl⟩
      | some b =>
          cases b with
          | leaf cell => exact ⟨getNode_ext c _, getNode_memo c _⟩
          | node cid =>
              obtain ⟨hext, hmemo⟩ := ih c cid pos v
              refine ⟨hext.trans (getNode_ext _ _), ?_⟩
              rw [getNode_memo, hmemo]

theorem setCellC_ok (d : Nat) :
    ∀ (f : Nat) (c : CacheSt) (nid : Nat) (pos : List Int) (v : Nat),
      CacheOK c → nid < c.store.length →
      CacheOK (setCellC d f c nid pos v).2 ∧
      (setCellC d f c nid pos v).1 < (setCellC d f c nid pos v).2.store.length := by
  intro f
  induction f with
  | zero =>
      intro c nid pos v hok hnid
      rw [setCellC]
      cases hb : (nodeAt c.store nid).branches.get?
          (NdT.branchIdx (nodeAt c.store nid).layer pos) with
      | none => exact ⟨hok, hnid⟩
      | some b =>
          cases b with
          | leaf cell =>
              have hbs : ∀ b' ∈ (nodeAt c.store nid).branches.set
                  (NdT.branchIdx (nodeAt c.store nid).layer pos) (.leaf v),
                  BranchOK c.store.length b' := by
                intro b' hb'
                rcases List.mem_or_eq_of_mem_set hb' with h | h
                · exact hok.1 _ (nodeAt_mem hnid) b' h
                · subst h; trivial
              exact ⟨getNode_cacheOK c _ hok hbs, getNode_lt c _⟩
          | node cid => exact ⟨hok, hnid⟩
  | succ f ih =>
      intro c nid pos v hok hnid
      rw [setCellC]
      cases hb : (nodeAt c.store nid).branches.get?
          (NdT.branchIdx (nodeAt c.store nid).layer pos) with
      | none => exact ⟨hok, hnid⟩
      | some b =>
          cases b with
          | leaf cell =>
              have hbs : ∀ b' ∈ (nodeAt c.store nid).branches.set
                  (NdT.branchIdx (nodeAt c.store nid).layer pos) (.leaf v),
                  BranchOK c.store.length b' := by
                intro b' hb'
                rcases List.mem_or_eq_of_mem_set hb' with h | h
                · exact hok.1 _ (nodeAt_mem hnid) b' h
                · subst h; trivial
              exact ⟨getNode_cacheOK c _ hok hbs, getNode_lt c _⟩
          | node cid =>
              have hcid : cid < c.store.length :=
                hok.1 _ (nodeAt_mem hnid) _ (List.get?_mem hb)
              obtain ⟨hok', hlt'⟩ := ih c cid pos v hok hcid
              have hextr : Ext c (setCellC d f c cid pos v).2 :=
                (setCellC_ext d f c cid pos v).1
              rcases hextr with ⟨t, ht⟩
              have hbs : ∀ b' ∈ (nodeAt c.store nid).branches.set
                  (NdT.branchIdx (nodeAt c.store nid).layer pos)
                  (.node (setCellC d f c cid pos v).1),
                  BranchOK (setCellC d f c cid pos v).2.store.length b' := by
                intro b' hb'
                rcases List.mem_or_eq_of_mem_set hb' with h | h
                · refine (hok.1 _ (nodeAt_mem hnid) b' h).mono ?_
                  rw [ht]
                  simp
                · subst h
                  exact hlt'
              exact ⟨getNode_cacheOK _ _ hok' hbs, getNode_lt _ _⟩

theorem setCellC_stable (d : Nat) :
    ∀ (f : Nat) (c : CacheSt) (nid : Nat) (pos : List Int) (v : Nat)
      (c'' : CacheSt), CacheOK c → nid < c.store.length →
      Ext (setCellC d f c nid pos v).2 c'' →
      setCellC d f c'' nid pos v = ((setCellC d f c nid pos v).1, c'') := by
  intro f
  induction f with
  | zero =>
      intro c nid pos v c'' hok hnid hext
      have hex0 : Ext c (setCellC d 0 c nid pos v).2 := (setCellC_ext d 0 c nid pos v).1
      have hexc : Ext c c'' := hex0.trans hext
      rcases hexc with ⟨t, ht⟩
      have hnode : nodeAt c''.store nid = nodeAt c.store nid := by
        rw [ht]; exact nodeAt_ext hnid
      rw [setCellC] at hext ⊢
      rw [hnode]
      conv_rhs => rw [setCellC]
      cases hb : (nodeAt c.store nid).branches.get?
          (NdT.branchIdx (nodeAt c.store nid).layer pos) with
      | none => rfl
      | some b =>
          cases b with
          | leaf cell =>
              rw [hb] at hext
              exact getNode_stable c _ c'' hext
          | node cid => rfl
  | succ f ih =>
      intro c nid pos v c'' hok hnid hext
      have hex0 : Ext c (setCellC d (f + 1) c nid pos v).2 :=
        (setCellC_ext d (f + 1) c nid pos v).1
      have hexc : Ext c c'' := hex0.trans hext
      obtain ⟨t, ht⟩ := hexc
      have hnode : nodeAt c''.store nid = nodeAt c.store nid := by
        rw [ht]; exact nodeAt_ext hnid
      cases hb : (nodeAt c.store nid).branches.get?
          (NdT.branchIdx (nodeAt c.store nid).layer pos) with
      | none =>
          rw [setCellC, hnode, hb]
          conv_rhs => rw [setCellC, hb]
      | some b =>
          cases b with
          | leaf cell =>
              have hRHS : setCellC d (f + 1) c nid pos v =
                  getNode c ((nodeAt c.store nid).branches.set
                    (NdT.branchIdx (nodeAt c.store nid).layer pos) (.leaf v)) := by
                rw [setCellC, hb]
              rw [hRHS] at hext
              have hLHS : setCellC d (f + 1) c'' nid pos v =
                  getNode c'' ((nodeAt c.store nid).branches.set
                    (NdT.branchIdx (nodeAt c.store nid).layer pos) (.leaf v)) := by
                rw [setCellC, hnode, hb]
              rw [hLHS, hRHS]
              exact getNode_stable c _ c'' hext
          | node cid =>
              have hcid : cid < c.store.length :=
                hok.1 _ (nodeAt_mem hnid) _ (List.get?_mem hb)
              have hRHS : setCellC d (f + 1) c nid pos v =
                  getNode (setCellC d f c cid pos v).2
                    ((nodeAt c.store nid).branches.set
                      (NdT.branchIdx (nodeAt c.store nid).layer pos)
                      (.node (setCellC d f c cid pos v).1)) := by
                rw [setCellC, hb]
              have hLHS : setCellC d (f + 1) c'' nid pos v =
                  getNode (setCellC d f c'' cid pos v).2
                    ((nodeAt c.store nid).branches.set
                      (NdT.branchIdx (nodeAt c.store nid).layer pos)
                      (.node (setCellC d f c'' cid pos v).1)) := by
                rw [setCellC, hnode, hb]
              rw [hRHS] at hext
              have hextrec : Ext (setCellC d f c cid pos v).2 c'' :=
                Ext.trans (getNode_ext _ _) hext
              have hrec := ih c cid pos v c'' hok hcid hextrec
              rw [hLHS, hrec, hRHS]
              exact getNode_stable (setCellC d f c cid pos v).2 _ c'' hext

/-! ### Behaviour of `get_empty_node` -/

theorem get?_some_lt {l : List Nat} {n : Nat} {a : Nat} (h : l.get? n = some a) :
    n < l.length := by
  by_contra hc
  rw [List.get?_eq_none.mpr (by omega)] at h
  cases h

theorem getEmptyNode_spec (d : Nat) :
    ∀ (L : Nat) (c : CacheSt), CacheOK c →
      Ext c (getEmptyNode d L c).2 ∧
      CacheOK (getEmptyNode d L c).2 ∧
      (getEmptyNode d L c).1 < (getEmptyNode d L c).2.store.length ∧
      (getEmptyNode d L c).2.emptyMemo.get? (max L 1 - 1) =
        some (getEmptyNode d L c).1 ∧
      (getEmptyNode d L c).2.emptyMemo.length =
        max c.emptyMemo.length (max L 1) := by
  intro L
  induction L using Nat.strong_induction_on with
  | _ L ih =>
      intro c hok
      match L with
      | 0 | 1 =>
          rw [getEmptyNode]
          cases hm : c.emptyMemo.get? 0 with
          | some i =>
              have hlen : 1 ≤ c.emptyMemo.length := get?_some_lt hm
              exact ⟨Ext.refl c, hok, hok.2 i (List.get?_mem hm), hm,
                by dsimp only; omega⟩
          | none =>
              have hlen : c.emptyMemo.length = 0 := by
                rw [List.get?_eq_none] at hm
                omega
              have hbs : ∀ b ∈ List.replicate (2 ^ d) (CBranch.leaf 0),
                  BranchOK c.store.length b := by
                intro b hb
                rw [List.eq_of_mem_replicate hb]
                trivial
              have hok' := getNode_cacheOK c _ hok hbs
              have hmemoEq := getNode_memo c (List.replicate (2 ^ d) (.leaf 0))
              have hlt := getNode_lt c (List.replicate (2 ^ d) (.leaf 0))
              have hext := getNode_ext c (List.replicate (2 ^ d) (.leaf 0))
              refine ⟨?_, ?_, ?_, ?_, ?_⟩
              · rcases hext with ⟨t, ht⟩
                exact ⟨t, ht⟩
              · constructor
                · intro e he b hb
                  exact hok'.1 e he b hb
                · intro i hi
                  simp only [hmemoEq] at hi ⊢
                  rcases List.mem_append.mp hi with h | h
                  · rcases hext with ⟨t, ht⟩
                    have := hok.2 i h
                    rw [ht]
                    simp only [List.length_append]
                    omega
                  · have : i = (getNode c (List.replicate (2 ^ d) (.leaf 0))).1 := by
                      simpa using h
                    subst this
                    exact hlt
              · exact hlt
              · simp only [hmemoEq, hlen]
                rw [show c.emptyMemo = [] from List.length_eq_zero.mp hlen]
                rfl
              · simp only [List.length_append, hmemoEq, hlen]
                rfl
      | l + 2 =>
          rw [getEmptyNode]
          cases hm : c.emptyMemo.get? (l + 1) with
          | some i =>
              have hlen : l + 2 ≤ c.emptyMemo.length := get?_some_lt hm
              refine ⟨Ext.refl c, hok, hok.2 i (List.get?_mem hm), ?_,
                by dsimp only; omega⟩
              simpa using hm
          | none =>
              have hlen : c.emptyMemo.length ≤ l + 1 := by
                rw [List.get?_eq_none] at hm
                omega
              obtain ⟨hext1, hok1, hlt1, _, hmlen1⟩ := ih (l + 1) (by omega) c hok
              have hbs : ∀ b ∈ List.replicate (2 ^ d)
                  (CBranch.node (getEmptyNode d (l + 1) c).1),
                  BranchOK (getEmptyNode d (l + 1) c).2.store.length b := by
                intro b hb
                rw [List.eq_of_mem_replicate hb]
                exact hlt1
              have hok2 := getNode_cacheOK _ _ hok1 hbs
              have hmemoEq := getNode_memo (getEmptyNode d (l + 1) c).2
                (List.replicate (2 ^ d) (.node (getEmptyNode d (l + 1) c).1))
              have hlt2 := getNode_lt (getEmptyNode d (l + 1) c).2
                (List.replicate (2 ^ d) (.node (getEmptyNode d (l + 1) c).1))
              have hext2 := getNode_ext (getEmptyNode d (l + 1) c).2
                (List.replicate (2 ^ d) (.node (getEmptyNode d (l + 1) c).1))
              have hm1len : (getEmptyNode d (l + 1) c).2.emptyMemo.length = l + 1 := by
                rw [hmlen1]
                omega
              refine ⟨?_, ?_, ?_, ?_, ?_⟩
              · rcases hext1 with ⟨t1, ht1⟩
                rcases hext2 with ⟨t2, ht2⟩
                exact ⟨t1 ++ t2, by simp only [ht2, ht1, List.append_assoc]⟩
              · constructor
                · intro e he b hb
                  exact hok2.1 e he b hb
                · intro i hi
                  simp only [hmemoEq] at hi ⊢
                  rcases List.mem_append.mp hi with h | h
                  · rcases hext2 with ⟨t2, ht2⟩
                    have := hok1.2 i h
                    rw [ht2]
                    simp only [List.length_append]
                    omega
                  · have : i = (getNode (getEmptyNode d (l + 1) c).2
                        (List.replicate (2 ^ d)
                          (.node (getEmptyNode d (l + 1) c).1))).1 := by
                      simpa using h
                    subst this
                    exact hlt2
              · exact hlt2
              · simp only [hmemoEq]
                have hidx : max (l + 2) 1 - 1 = l + 1 := by omega
                rw [hidx]
                set M := (getEmptyNode d (l + 1) c).2.emptyMemo with hM
                rw [← hm1len]
                exact List.get?_concat_length _ _
              · simp only [List.length_append, hmemoEq, hm1len]
                simp
                omega

theorem getEmptyNode_hit (d : Nat) (L : Nat) (c : CacheSt) (r : Nat)
    (h : c.emptyMemo.get? (max L 1 - 1) = some r) :
    getEmptyNode d L c = (r, c) := by
  match L with
  | 0 =>
      rw [getEmptyNode]
      rw [show (max 0 1 - 1 : Nat) = 0 from rfl] at h
      rw [h]
  | 1 =>
      rw [getEmptyNode]
      rw [show (max 1 1 - 1 : Nat) = 0 from rfl] at h
      rw [h]
  | l + 2 =>
      rw [getEmptyNode]
      rw [show (max (l + 2) 1 - 1 : Nat) = l + 1 from by omega] at h
      rw [h]

/-! ### The build sequence -/

theorem setCellTop_spec (d : Nat) (c : CacheSt) (nid : Nat) (pos : List Int)
    (v : Nat) (hok : CacheOK c) (hnid : nid < c.store.length) :
    Ext c (setCellTop d c nid pos v).2 ∧
    CacheOK (setCellTop d c nid pos v).2 ∧
    (setCellTop d c nid pos v).1 < (setCellTop d c nid pos v).2.store.length ∧
    (setCellTop d c nid pos v).2.emptyMemo = c.emptyMemo ∧
    (∀ c'', Ext (setCellTop d c nid pos v).2 c'' →
      setCellTop d c'' nid pos v = ((setCellTop d c nid pos v).1, c'')) := by
  obtain ⟨hext, hmemo⟩ := setCellC_ext d (storedLayer c nid) c nid pos v
  obtain ⟨hok', hlt⟩ := setCellC_ok d (storedLayer c nid) c nid pos v hok hnid
  refine ⟨hext, hok', hlt, hmemo, ?_⟩
  intro c'' hext''
  have hexc : Ext c c'' := hext.trans hext''
  rcases hexc with ⟨t, ht⟩
  have hlayer : storedLayer c'' nid = storedLayer c nid := by
    unfold storedLayer
    rw [ht, nodeAt_ext hnid]
  unfold setCellTop
  rw [hlayer]
  exact setCellC_stable d (storedLayer c nid) c nid pos v c'' hok hnid hext''

theorem foldCalls_spec (d : Nat) :
    ∀ (calls : List (List Int × Nat)) (r : Nat) (c : CacheSt),
      CacheOK c → r < c.store.length →
      Ext c (calls.foldl (stepCall d) (r, c)).2 ∧
      CacheOK (calls.foldl (stepCall d) (r, c)).2 ∧
      (calls.foldl (stepCall d) (r, c)).1 <
        (calls.foldl (stepCall d) (r, c)).2.store.length ∧
      (calls.foldl (stepCall d) (r, c)).2.emptyMemo = c.emptyMemo ∧
      (∀ c'', Ext (calls.foldl (stepCall d) (r, c)).2 c'' →
        calls.foldl (stepCall d) (r, c'') =
          ((calls.foldl (stepCall d) (r, c)).1, c'')) := by
  intro calls
  induction calls with
  | nil =>
      intro r c hok hr
      exact ⟨Ext.refl c, hok, hr, rfl, fun c'' _ => rfl⟩
  | cons call rest ih =>
      intro r c hok hr
      obtain ⟨hext1, hok1, hlt1, hmemo1, hstab1⟩ :=
        setCellTop_spec d c r call.1 call.2 hok hr
      have hstep : stepCall d (r, c) call = setCellTop d c r call.1 call.2 := rfl
      obtain ⟨hext2, hok2, hlt2, hmemo2, hstab2⟩ :=
        ih (setCellTop d c r call.1 call.2).1 (setCellTop d c r call.1 call.2).2
          hok1 hlt1
      simp only [List.foldl_cons, hstep]
      refine ⟨hext1.trans hext2, hok2, hlt2, by rw [hmemo2, hmemo1], ?_⟩
      intro c'' hext''
      have hstepc : stepCall d (r, c'') call =
          ((setCellTop d c r call.1 call.2).1, c'') :=
        hstab1 c'' (hext2.trans hext'')
      rw [hstepc]
      exact hstab2 c'' hext''

end Cache

/-- Claim C6: interning is idempotent by pointer (`get_node(x)` twice
returns the same interned object, here the same store index), and
consequently two trees produced from fresh roots by the same sequence of
`set_cell` calls — same positions, states and order, sharing one cache —
have pointer-equal roots.  The second run's lookups all hit the entries the
first run interned, so it allocates nothing and returns the same pointer. -/
theorem claim_C6_interning :
    (∀ (c : Cache.CacheSt) (bs : List Cache.CBranch),
      Cache.getNode (Cache.getNode c bs).2 bs =
        ((Cache.getNode c bs).1, (Cache.getNode c bs).2)) ∧
    (∀ (d L : Nat) (calls : List (List Int × Nat)) (c0 : Cache.CacheSt),
      Cache.CacheOK c0 → 1 ≤ L →
      (Cache.buildSeq d L calls (Cache.buildSeq d L calls c0).2).1 =
        (Cache.buildSeq d L calls c0).1) := by
  constructor
  · exact Cache.getNode_idem
  · intro d L calls c0 hok _
    obtain ⟨hext0, hok0, hlt0, hget0, _⟩ := Cache.getEmptyNode_spec d L c0 hok
    obtain ⟨hextF, hokF, hltF, hmemoF, hstabF⟩ :=
      Cache.foldCalls_spec d calls (Cache.getEmptyNode d L c0).1
        (Cache.getEmptyNode d L c0).2 hok0 hlt0
    unfold Cache.buildSeq
    have hhit : Cache.getEmptyNode d L
        (calls.foldl (Cache.stepCall d) (Cache.getEmptyNode d L c0)).2 =
        ((Cache.getEmptyNode d L c0).1,
          (calls.foldl (Cache.stepCall d) (Cache.getEmptyNode d L c0)).2) := by
      apply Cache.getEmptyNode_hit
      rw [hmemoF]
      exact hget0
    rw [hhit]
    have := hstabF
      (calls.foldl (Cache.stepCall d) (Cache.getEmptyNode d L c0)).2
      (Cache.Ext.refl _)
    rw [this]

/-- Witness for claim C6: a fresh cache is well-formed, and building a two
write sequence twice at layer 1 in one dimension returns the same root
pointer. -/
theorem claim_C6_witness :
    Cache.CacheOK Cache.emptyCache ∧ 1 ≤ 1 ∧
    (Cache.buildSeq 1 1 [([0], 1), ([-1], 2)]
        (Cache.buildSeq 1 1 [([0], 1), ([-1], 2)] Cache.emptyCache).2).1 =
      (Cache.buildSeq 1 1 [([0], 1), ([-1], 2)] Cache.emptyCache).1 := by
  have hok : Cache.CacheOK Cache.emptyCache := by
    constructor
    · intro e he
      cases he
    · intro i hi
      cases hi
  exact ⟨hok, le_refl 1,
    claim_C6_interning.2 1 1 [([0], 1), ([-1], 2)] Cache.emptyCache hok (le_refl 1)⟩

namespace NodeOld

/-! ## The tree of `src/automaton/space/ndtree/node_old.rs`

`NdTreeNode { layer, branches, hash_code, population, .. }` with branches
`NdTreeBranch = Leaf(cell) | Node(Rc<NdTreeNode>)` is modelled structurally.
`intern` hash-conses nodes, so pointer equality of interned trees coincides
with structural equality; `intern` is therefore the identity here and the
claims compare trees structurally.  The cached `hash_code` and `population`
fields are derived data and are recomputed where used. -/

/-- A branch of `node_old.rs`: a single cell (`NdTreeBranch::Leaf`) or a
subnode (`NdTreeBranch::Node`). -/
inductive OBranch : Type where
  | leaf (cell : Nat)
  | node (layer : Nat) (branches : List OBranch)
  deriving Repr

/-- `NdTreeBranch::layer` (a leaf is layer 0, a node reports its `layer`
field). -/
def oLayer : OBranch → Nat
  | .leaf _ => 0
  | .node l _ => l

/-- `NdTreeNode::with_branches`: builds a node whose layer is one more than
the first branch's layer (the wrong-count and mixed-layer panics are omitted;
every use below satisfies them).  `intern` is the identity in the structural
model. -/
def withBranches (bs : List OBranch) : OBranch :=
  OBranch.node (oLayer (bs.headD (.leaf 0)) + 1) bs

/-- `NdTreeBranch::empty`: a default leaf at layer 0, otherwise
`NdTreeNode::empty`, a node of `2^d` empty branches one layer down. -/
def emptyBranch (d : Nat) : Nat → OBranch
  | 0 => .leaf 0
  | l + 1 => withBranches (List.replicate (2 ^ d) (emptyBranch d l))

/-- `population`: the number of non-default cells, recomputed structurally
(the `population` field caches this count; spec section 3).  Fuel-recursive so
the kernel can evaluate it; branches sit one layer down, so fuel `oLayer`
(see `pop`) always suffices on well-formed trees. -/
def popF : Nat → OBranch → Nat
  | _, .leaf c => if c = 0 then 0 else 1
  | 0, .node _ _ => 0
  | f + 1, .node _ bs => (bs.map (popF f)).sum

/-- `population` of a branch. -/
def pop (b : OBranch) : Nat := popF (oLayer b) b

/-- Componentwise sum of position vectors (`NdVec + NdVec`). -/
def vadd (v w : List Int) : List Int := List.zipWith (· + ·) v w

/-- Componentwise difference of position vectors (`NdVec - NdVec`). -/
def vsub (v w : List Int) : List Int := List.zipWith (· - ·) v w

/-- Bit `j` of a natural number. -/
def bitOf (n j : Nat) : Nat := n / 2 ^ j % 2

/-- `NdTreeNode::branch_offset_at_layer`: axis `ax` receives
`halfway = 2^(layer-1)` times bit `NDIM - 1 - ax` of the branch index. -/
def branchOffset (d layer bi : Nat) : List Int :=
  (List.range d).map fun ax => (2 : Int) ^ (layer - 1) * (bitOf bi (d - 1 - ax) : Int)

/-- The bounds check of `get_subtree_branch`:
`self.rect().contains(rect_at_layer(layer) + offset)`, i.e. both corners of
the requested rectangle lie inside `[0, 2^selfLayer - 1]` on every axis.
(`NdRect::contains` itself is not under `src/`; containment of a rectangle
is containment of both its corners.) -/
def rectInBounds (selfLayer reqLayer : Nat) (offset : List Int) : Bool :=
  offset.all fun o =>
    decide (0 ≤ o) && decide (o + ((2 : Int) ^ reqLayer - 1) ≤ (2 : Int) ^ selfLayer - 1)

/-- `NdTreeNode::get_subtree_branch`.  The branch indices of the requested
rectangle's corners are taken with the node's own layer (`self.branch_idx`,
the same bit-packing as `ndtree.rs`; the coordinates reaching it here are
non-negative, where the `usize` cast and logical shift agree with `ibit`).
The two panics (out-of-bounds request, which the Rust code raises before
anything else, and an impossible branch index) are modelled as a default
leaf.  The recursion is by fuel: every recursive call strictly decreases
`oLayer self + layer` (delegation descends to a child one layer down,
divide-and-conquer lowers `layer`), so fuel `2 * oLayer self` (see
`getSubtree`) is never exhausted on well-formed input. -/
def getSubtreeBranchF (d : Nat) : Nat → OBranch → Nat → List Int → OBranch
  | fuel, self, layer, offset =>
    if rectInBounds (oLayer self) layer offset then
      if layer = oLayer self then
        self
      else
        match fuel, self with
        | _, .leaf c => .leaf c
        | 0, .node _ _ => .leaf 0
        | f + 1, .node L bs =>
          if NdT.branchIdx L offset =
              NdT.branchIdx L (vadd offset (List.replicate d ((2 : Int) ^ layer - 1))) then
            match bs.get? (NdT.branchIdx L offset) with
            | none => .leaf 0
            | some (.leaf c) => .leaf c
            | some (.node L2 bs2) =>
                getSubtreeBranchF d f (.node L2 bs2) layer
                  (vsub offset (branchOffset d L (NdT.branchIdx L offset)))
          else
            withBranches ((List.range (2 ^ d)).map fun bi =>
              getSubtreeBranchF d f (.node L bs) (layer - 1)
                (vadd offset (branchOffset d layer bi)))
    else .leaf 0

/-- `NdTreeNode::get_subtree` (the layer-0 and got-a-cell panics do not fire
in the uses below, which return a node). -/
def getSubtree (d : Nat) (self : OBranch) (layer : Nat) (offset : List Int) : OBranch :=
  getSubtreeBranchF d (2 * oLayer self) self layer offset

/-- `NdTreeNode::get_inner`: the subtree one layer down whose lower corner is
`origin + len/4` on every axis. -/
def getInner (d : Nat) (self : OBranch) : OBranch :=
  getSubtree d self (oLayer self - 1)
    (List.replicate d ((2 ^ oLayer self / 4 : Nat) : Int))

/-- The `while` loop of `contract_centered`: while the layer exceeds 1 and
the starting node's population equals the population of the current node's
inner node, descend to the inner node.  Each iteration lowers the layer by
one, so fuel `oLayer self` (see `contractCentered`) covers every iteration. -/
def contractGo (d selfPop : Nat) : Nat → OBranch → OBranch
  | 0, ret => ret
  | f + 1, ret =>
    if 1 < oLayer ret ∧ selfPop = pop (getInner d ret) then
      contractGo d selfPop f (getInner d ret)
    else ret

/-- `NdTreeNode::contract_centered`. -/
def contractCentered (d : Nat) (self : OBranch) : OBranch :=
  contractGo d (pop self) (oLayer self) self

/-- The branch list built by `expand_centered`: branch `bi` of the original
is placed in the opposite corner (`bi XOR (2^d - 1)`) of a fresh node of
empty branches one layer below the original node. -/
def expandBranchesGo (d L : Nat) : Nat → List OBranch → List OBranch
  | _, [] => []
  | bi, b :: rest =>
      withBranches ((List.replicate (2 ^ d) (emptyBranch d (L - 1))).set
          (bi ^^^ (2 ^ d - 1)) b)
        :: expandBranchesGo d L (bi + 1) rest

/-- `NdTreeNode::expand_centered` (a method of nodes; the leaf arm is
unreachable). -/
def expandCentered (d : Nat) : OBranch → OBranch
  | .leaf c => .leaf c
  | .node L bs => withBranches (expandBranchesGo d L 0 bs)

/-- Well-formed branches: a leaf at layer 0, or a node whose stored layer is
one more than that of its `2^d` well-formed branches (the invariant
`with_branches` enforces by panicking). -/
inductive WFo (d : Nat) : Nat → OBranch → Prop where
  | leaf (c : Nat) : WFo d 0 (.leaf c)
  | node (l : Nat) (bs : List OBranch) (hlen : bs.length = 2 ^ d)
      (hb : ∀ b ∈ bs, WFo d l b) : WFo d (l + 1) (.node (l + 1) bs)

theorem WFo_oLayer {d l : Nat} {b : OBranch} (h : WFo d l b) : oLayer b = l := by
  cases h <;> rfl

theorem headD_of_pos {α : Type} (l : List α) (a : α) (h : l ≠ []) :
    l.headD a ∈ l := by
  cases l with
  | nil => exact absurd rfl h
  | cons x t => exact List.mem_cons_self x t

theorem withBranches_eq_node (bs : List OBranch) (l : Nat)
    (h : ∀ b ∈ bs, oLayer b = l) (hne : bs ≠ []) :
    withBranches bs = OBranch.node (l + 1) bs := by
  cases bs with
  | nil => exact absurd rfl hne
  | cons b t =>
      unfold withBranches
      rw [List.headD_cons, h b (List.mem_cons_self b t)]

theorem oLayer_emptyBranch (d : Nat) : ∀ l, oLayer (emptyBranch d l) = l := by
  intro l
  induction l with
  | zero => rfl
  | succ l ih =>
      have hne : List.replicate (2 ^ d) (emptyBranch d l) ≠ [] := by
        apply List.ne_nil_of_length_pos
        rw [List.length_replicate]
        exact Nat.two_pow_pos d
      have hall : ∀ b ∈ List.replicate (2 ^ d) (emptyBranch d l), oLayer b = l := by
        intro b hb
        rw [List.eq_of_mem_replicate hb]
        exact ih
      rw [emptyBranch, withBranches_eq_node _ l hall hne]
      rfl

theorem WFo_emptyBranch (d : Nat) : ∀ l, WFo d l (emptyBranch d l) := by
  intro l
  induction l with
  | zero => exact WFo.leaf 0
  | succ l ih =>
      have hne : List.replicate (2 ^ d) (emptyBranch d l) ≠ [] := by
        apply List.ne_nil_of_length_pos
        rw [List.length_replicate]
        exact Nat.two_pow_pos d
      have hall : ∀ b ∈ List.replicate (2 ^ d) (emptyBranch d l), oLayer b = l := by
        intro b hb
        rw [List.eq_of_mem_replicate hb]
        exact oLayer_emptyBranch d l
      rw [emptyBranch, withBranches_eq_node _ l hall hne]
      exact WFo.node l _ (List.length_replicate _ _)
        (fun b hb => (List.eq_of_mem_replicate hb) ▸ ih)

theorem popF_leaf (f c : Nat) : popF f (.leaf c) = if c = 0 then 0 else 1 := by
  cases f <;> rfl

theorem popF_fuel {d : Nat} : ∀ {l : Nat} {b : OBranch}, WFo d l b →
    ∀ f, l ≤ f → popF f b = popF l b := by
  intro l b h
  induction h with
  | leaf c => intro f _; rw [popF_leaf, popF_leaf]
  | node l bs hlen hb ih =>
      intro f hf
      obtain ⟨f', rfl⟩ : ∃ f', f = f' + 1 := ⟨f - 1, by omega⟩
      show (bs.map (popF f')).sum = (bs.map (popF l)).sum
      congr 1
      exact List.map_congr_left fun b hbmem => ih b hbmem f' (by omega)

theorem pop_eq_popF {d l : Nat} {b : OBranch} (h : WFo d l b) : pop b = popF l b := by
  rw [pop, WFo_oLayer h]

theorem popF_emptyBranch (d : Nat) : ∀ l, popF l (emptyBranch d l) = 0 := by
  intro l
  induction l with
  | zero => rfl
  | succ l ih =>
      show ((List.replicate (2 ^ d) (emptyBranch d l)).map (popF l)).sum = 0
      apply List.sum_eq_zero
      intro x hx
      rcases List.mem_map.mp hx with ⟨b, hb, rfl⟩
      rw [List.eq_of_mem_replicate hb]
      exact ih

theorem bitOf_lt_two (n j : Nat) : bitOf n j < 2 :=
  Nat.mod_lt _ (by norm_num)

theorem bitOf_eq_testBit (n j : Nat) : bitOf n j = if n.testBit j then 1 else 0 := by
  rw [Nat.testBit_to_div_mod]
  rcases Nat.mod_two_eq_zero_or_one (n / 2 ^ j) with h | h <;>
    simp [bitOf, h]

theorem bitOf_mod_two_pow {j d : Nat} (n : Nat) (h : j < d) :
    bitOf (n % 2 ^ d) j = bitOf n j := by
  rw [bitOf_eq_testBit, bitOf_eq_testBit, Nat.testBit_mod_two_pow]
  simp [h]

theorem bitOf_xor_mask {d j : Nat} (bi : Nat) (h : j < d) :
    bitOf (bi ^^^ (2 ^ d - 1)) j = 1 - bitOf bi j := by
  rw [bitOf_eq_testBit, bitOf_eq_testBit, Nat.testBit_xor,
    Nat.testBit_two_pow_sub_one]
  cases hb : bi.testBit j <;> simp [h, hb]

/-- Bit values 0 and 1 of integers in the two halves of `[0, 2^(k+1))`. -/
theorem ibit_of_lt {c : Int} {k : Nat} (h0 : 0 ≤ c) (h1 : c < 2 ^ k) :
    ibit c k = 0 := by
  unfold ibit
  rw [Int.fdiv_eq_ediv _ (by positivity), Int.ediv_eq_zero_of_lt h0 h1]
  rfl

theorem ibit_of_ge {c : Int} {k : Nat} (h0 : 2 ^ k ≤ c) (h1 : c < 2 ^ (k + 1)) :
    ibit c k = 1 := by
  unfold ibit
  have hp : (0 : Int) < 2 ^ k := by positivity
  have hdiv : c.fdiv (2 ^ k) = 1 := by
    rw [Int.fdiv_eq_ediv _ (by positivity)]
    have hc : c = (c - 2 ^ k) + 2 ^ k * 1 := by ring
    rw [hc, Int.add_mul_ediv_left _ _ (by positivity : (0:Int) < 2 ^ k).ne',
      Int.ediv_eq_zero_of_lt (by omega)]
    · ring
    · have h2 : (2 : Int) ^ (k + 1) = 2 * 2 ^ k := by ring
      omega
  rw [hdiv]
  rfl

/-- Folding the branch-index step over a vector whose axis `ax` holds
`F (bit (d-1-ax) of bi)`, where `F` maps bit `t` to a coordinate whose
`k`-th bit is `t`, recovers `bi` (most significant axis first). -/
theorem foldl_idx_bits (k : Nat) (F : Nat → Int)
    (h0 : ibit (F 0) k = 0) (h1 : ibit (F 1) k = 1) :
    ∀ (d bi acc : Nat), bi < 2 ^ d →
      List.foldl (fun a c => 2 * a + ibit c k) acc
        ((List.range d).map fun ax => F (bitOf bi (d - 1 - ax))) =
        acc * 2 ^ d + bi := by
  intro d
  induction d with
  | zero =>
      intro bi acc hbi
      interval_cases bi
      simp
  | succ d ih =>
      intro bi acc hbi
      rw [List.range_succ_eq_map, List.map_cons, List.map_map]
      simp only [List.foldl_cons]
      have htail : (List.range d).map
            ((fun ax => F (bitOf bi (d + 1 - 1 - ax))) ∘ (· + 1)) =
          (List.range d).map (fun ax => F (bitOf (bi % 2 ^ d) (d - 1 - ax))) := by
        apply List.map_congr_left
        intro ax hax
        rw [List.mem_range] at hax
        show F (bitOf bi (d + 1 - 1 - (ax + 1))) = F (bitOf (bi % 2 ^ d) (d - 1 - ax))
        have he : d + 1 - 1 - (ax + 1) = d - 1 - ax := by omega
        rw [he, bitOf_mod_two_pow _ (by omega)]
      rw [htail, ih (bi % 2 ^ d) _ (Nat.mod_lt _ (Nat.two_pow_pos d))]
      have hb : ibit (F (bitOf bi (d + 1 - 1 - 0))) k = bitOf bi d := by
        have h2 := bitOf_lt_two bi (d + 1 - 1 - 0)
        have he : d + 1 - 1 - 0 = d := by omega
        rw [he] at h2 ⊢
        rcases (by omega : bitOf bi d = 0 ∨ bitOf bi d = 1) with h | h <;> rw [h]
        · exact h0
        · exact h1
      rw [hb]
      have hdd : bitOf bi d = bi / 2 ^ d := by
        unfold bitOf
        rw [Nat.mod_eq_of_lt]
        rw [Nat.div_lt_iff_lt_mul (Nat.two_pow_pos d)]
        calc bi < 2 ^ (d + 1) := hbi
          _ = 2 * 2 ^ d := by ring
      rw [hdd]
      calc (2 * acc + bi / 2 ^ d) * 2 ^ d + bi % 2 ^ d
          = acc * (2 ^ d * 2) + (2 ^ d * (bi / 2 ^ d) + bi % 2 ^ d) := by ring
        _ = acc * 2 ^ (d + 1) + bi := by rw [Nat.div_add_mod, ← Nat.pow_succ]

/-- Folding the branch-index step over a constant vector whose `k`-th bit is
0 leaves the accumulator shifted. -/
theorem foldl_idx_replicate_zero (k : Nat) (c : Int) (h : ibit c k = 0) :
    ∀ (n acc : Nat),
      List.foldl (fun a x => 2 * a + ibit x k) acc (List.replicate n c) =
        acc * 2 ^ n := by
  intro n
  induction n with
  | zero => intro acc; simp
  | succ n ih =>
      intro acc
      rw [List.replicate_succ]
      simp only [List.foldl_cons, h]
      rw [ih]
      ring

/-- Folding the branch-index step over a constant vector whose `k`-th bit is
1 produces all-ones below the shifted accumulator. -/
theorem foldl_idx_replicate_one (k : Nat) (c : Int) (h : ibit c k = 1) :
    ∀ (n acc : Nat),
      List.foldl (fun a x => 2 * a + ibit x k) acc (List.replicate n c) =
        (acc + 1) * 2 ^ n - 1 := by
  intro n
  induction n with
  | zero => intro acc; simp
  | succ n ih =>
      intro acc
      rw [List.replicate_succ]
      simp only [List.foldl_cons, h]
      rw [ih]
      have h1 : (2 * acc + 1 + 1) * 2 ^ n = (acc + 1) * 2 ^ (n + 1) := by ring
      have h2 : 0 < 2 ^ n := Nat.two_pow_pos n
      omega

theorem replicate_eq_range_map (n : Nat) (c : Int) :
    List.replicate n c = (List.range n).map fun _ => c := by
  rw [List.map_const', List.length_range]

theorem zipWith_map_range (f : Int → Int → Int) (g h : Nat → Int) :
    ∀ n, List.zipWith f ((List.range n).map g) ((List.range n).map h) =
      (List.range n).map fun ax => f (g ax) (h ax) := by
  intro n
  induction n with
  | zero => rfl
  | succ n ih =>
      rw [List.range_succ, List.map_append, List.map_append, List.map_append,
        List.zipWith_append _ _ _ _ _ (by simp), ih]
      rfl

theorem vadd_replicate (a b : Int) (n : Nat) :
    vadd (List.replicate n a) (List.replicate n b) = List.replicate n (a + b) := by
  unfold vadd
  rw [replicate_eq_range_map n a, replicate_eq_range_map n b,
    zipWith_map_range, replicate_eq_range_map]

theorem rectInBounds_map (S R n : Nat) (F : Nat → Int)
    (h : ∀ ax, ax < n → 0 ≤ F ax ∧ F ax + ((2 : Int) ^ R - 1) ≤ (2 : Int) ^ S - 1) :
    rectInBounds S R ((List.range n).map F) = true := by
  unfold rectInBounds
  rw [List.all_eq_true]
  intro o ho
  rcases List.mem_map.mp ho with ⟨ax, hax, rfl⟩
  rw [List.mem_range] at hax
  rcases h ax hax with ⟨h1, h2⟩
  simp only [Bool.and_eq_true, decide_eq_true_eq]
  exact ⟨h1, h2⟩

theorem rectInBounds_zeros (l d : Nat) :
    rectInBounds l l ((List.range d).map fun _ => (0 : Int)) = true := by
  apply rectInBounds_map
  intro ax _
  constructor
  · exact le_refl 0
  · omega

theorem rectInBounds_zeros_rep (l d : Nat) :
    rectInBounds l l (List.replicate d (0 : Int)) = true := by
  rw [replicate_eq_range_map]
  exact rectInBounds_zeros l d

theorem getSubtree_self_zeros (d f l : Nat) (X : List OBranch) :
    getSubtreeBranchF d f (OBranch.node l X) l ((List.range d).map fun _ => (0 : Int)) =
      OBranch.node l X := by
  rw [getSubtreeBranchF.eq_def]
  simp [oLayer, rectInBounds_zeros, rectInBounds_zeros_rep]

theorem branchIdx_bits (l d j : Nat) (F : Nat → Int)
    (h0 : ibit (F 0) l = 0) (h1 : ibit (F 1) l = 1) (hj : j < 2 ^ d) :
    NdT.branchIdx (l + 1) ((List.range d).map fun ax => F (bitOf j (d - 1 - ax))) = j := by
  unfold NdT.branchIdx
  simp only [Nat.add_sub_cancel]
  have h := foldl_idx_bits l F h0 h1 d j 0 hj
  rw [Nat.zero_mul, Nat.zero_add] at h
  exact h

theorem branchIdx_replicate_zero (l d : Nat) (c : Int) (h : ibit c l = 0) :
    NdT.branchIdx (l + 1) (List.replicate d c) = 0 := by
  unfold NdT.branchIdx
  simp only [Nat.add_sub_cancel]
  have h2 := foldl_idx_replicate_zero l c h d 0
  simpa using h2

theorem branchIdx_replicate_one (l d : Nat) (c : Int) (h : ibit c l = 1) :
    NdT.branchIdx (l + 1) (List.replicate d c) = 2 ^ d - 1 := by
  unfold NdT.branchIdx
  simp only [Nat.add_sub_cancel]
  have h2 := foldl_idx_replicate_one l c h d 0
  simpa using h2

/-- Delegation into the branch holding the requested rectangle: a request at
layer `l` with offset `2^l * (bit of j)` on each axis inside a layer-`(l+1)`
node resolves to branch `j`. -/
theorem level3_delegate (d l f j : Nat) (hj : j < 2 ^ d)
    (X : List OBranch) (b : OBranch) (hXb : X.get? j = some b) (hwfb : WFo d l b) :
    getSubtreeBranchF d (f + 1) (OBranch.node (l + 1) X) l
      ((List.range d).map fun ax => (2 : Int) ^ l * (bitOf j (d - 1 - ax) : Int)) = b := by
  have hp : (0 : Int) < 2 ^ l := by positivity
  have e1 : (2 : Int) ^ (l + 1) = 2 * 2 ^ l := by ring
  have hbit01 : ∀ ax : Nat, ((bitOf j (d - 1 - ax) : Nat) : Int) = 0 ∨
      ((bitOf j (d - 1 - ax) : Nat) : Int) = 1 := by
    intro ax
    have h2 := bitOf_lt_two j (d - 1 - ax)
    rcases (by omega : bitOf j (d - 1 - ax) = 0 ∨ bitOf j (d - 1 - ax) = 1) with h | h <;>
      rw [h]
    · left; rfl
    · right; rfl
  have hb3 : rectInBounds (l + 1) l
      ((List.range d).map fun ax => (2 : Int) ^ l * (bitOf j (d - 1 - ax) : Int)) = true := by
    apply rectInBounds_map
    intro ax _
    rcases hbit01 ax with h | h <;> rw [h] <;> refine ⟨by omega, by omega⟩
  have hmin : NdT.branchIdx (l + 1)
      ((List.range d).map fun ax => (2 : Int) ^ l * (bitOf j (d - 1 - ax) : Int)) = j := by
    apply branchIdx_bits l d j (fun t => (2 : Int) ^ l * (t : Int)) ?_ ?_ hj
    · show ibit ((2 : Int) ^ l * ((0 : Nat) : Int)) l = 0
      have h : (2 : Int) ^ l * ((0 : Nat) : Int) = 0 := by norm_num
      rw [h]
      exact ibit_of_lt le_rfl (by positivity)
    · show ibit ((2 : Int) ^ l * ((1 : Nat) : Int)) l = 1
      have h : (2 : Int) ^ l * ((1 : Nat) : Int) = 2 ^ l := by norm_num
      rw [h]
      exact ibit_of_ge le_rfl (by omega)
  have hmax : NdT.branchIdx (l + 1)
      (vadd ((List.range d).map fun ax => (2 : Int) ^ l * (bitOf j (d - 1 - ax) : Int))
        (List.replicate d ((2 : Int) ^ l - 1))) = j := by
    unfold vadd
    rw [replicate_eq_range_map, zipWith_map_range]
    apply branchIdx_bits l d j (fun t => (2 : Int) ^ l * (t : Int) + (2 ^ l - 1)) ?_ ?_ hj
    · show ibit ((2 : Int) ^ l * ((0 : Nat) : Int) + (2 ^ l - 1)) l = 0
      have h : (2 : Int) ^ l * ((0 : Nat) : Int) + (2 ^ l - 1) = 2 ^ l - 1 := by norm_num
      rw [h]
      exact ibit_of_lt (by omega) (by omega)
    · show ibit ((2 : Int) ^ l * ((1 : Nat) : Int) + (2 ^ l - 1)) l = 1
      have h : (2 : Int) ^ l * ((1 : Nat) : Int) + (2 ^ l - 1) = 2 ^ (l + 1) - 1 := by
        push_cast; ring
      rw [h]
      exact ibit_of_ge (by omega) (by omega)
  rw [getSubtreeBranchF.eq_def]
  simp only [oLayer]
  rw [hb3, if_pos rfl, if_neg (by omega : ¬ l = l + 1)]
  rw [hmin, hmax, if_pos rfl, hXb]
  cases hwfb with
  | leaf c => rfl
  | node l2 bs2 hlen2 hb2 =>
      dsimp only
      have hoff : vsub ((List.range d).map fun ax =>
            (2 : Int) ^ (l2 + 1) * (bitOf j (d - 1 - ax) : Int))
          (branchOffset d (l2 + 1 + 1) j) = (List.range d).map fun _ => (0 : Int) := by
        unfold vsub branchOffset
        simp only [Nat.add_sub_cancel]
        rw [zipWith_map_range]
        apply List.map_congr_left
        intro ax _
        ring
      rw [hoff]
      exact getSubtree_self_zeros d f (l2 + 1) bs2


theorem expandBranchesGo_get? (d L : Nat) :
    ∀ (bs : List OBranch) (bi k : Nat),
      (expandBranchesGo d L bi bs).get? k = (bs.get? k).map fun b =>
        withBranches ((List.replicate (2 ^ d) (emptyBranch d (L - 1))).set
          ((bi + k) ^^^ (2 ^ d - 1)) b) := by
  intro bs
  induction bs with
  | nil => intro bi k; simp [expandBranchesGo]
  | cons b t ih =>
      intro bi k
      cases k with
      | zero => simp [expandBranchesGo]
      | succ k =>
          rw [expandBranchesGo]
          show (expandBranchesGo d L (bi + 1) t).get? k = _
          rw [ih (bi + 1) k]
          have he : bi + 1 + k = bi + (k + 1) := by omega
          rw [he]
          rfl

theorem expandBranchesGo_length (d L : Nat) :
    ∀ (bs : List OBranch) (bi : Nat),
      (expandBranchesGo d L bi bs).length = bs.length := by
  intro bs
  induction bs with
  | nil => intro bi; rfl
  | cons b t ih =>
      intro bi
      rw [expandBranchesGo]
      show (expandBranchesGo d L (bi + 1) t).length + 1 = t.length + 1
      rw [ih (bi + 1)]

/-- The node `expand_centered` places around branch `b` (all other branches
empty) is a well-shaped node one layer above `b`. -/
theorem inner_shape (d l j : Nat) (b : OBranch) (hb : oLayer b = l) :
    withBranches ((List.replicate (2 ^ d) (emptyBranch d l)).set j b) =
      OBranch.node (l + 1) ((List.replicate (2 ^ d) (emptyBranch d l)).set j b) := by
  apply withBranches_eq_node
  · intro x hx
    rcases List.mem_or_eq_of_mem_set hx with hx | rfl
    · rw [List.eq_of_mem_replicate hx]
      exact oLayer_emptyBranch d l
    · exact hb
  · apply List.ne_nil_of_length_pos
    rw [List.length_set, List.length_replicate]
    exact Nat.two_pow_pos d

/-- `expand_centered` on a well-formed layer-`(l+1)` node yields a
layer-`(l+2)` node over the expanded branch list. -/
theorem expandCentered_shape (d l : Nat) (bs : List OBranch)
    (hlen : bs.length = 2 ^ d) (hwf : ∀ b ∈ bs, WFo d l b) :
    expandCentered d (OBranch.node (l + 1) bs) =
      OBranch.node (l + 2) (expandBranchesGo d (l + 1) 0 bs) := by
  show withBranches (expandBranchesGo d (l + 1) 0 bs) = _
  have h := withBranches_eq_node (expandBranchesGo d (l + 1) 0 bs) (l + 1) ?_ ?_
  · exact h
  · intro x hx
    rcases List.get?_of_mem hx with ⟨k, hk⟩
    rw [expandBranchesGo_get? d (l + 1) bs 0 k] at hk
    cases hbk : bs.get? k with
    | none => rw [hbk] at hk; exact absurd hk (by simp)
    | some b =>
        rw [hbk] at hk
        have hbb : b ∈ bs := List.get?_mem hbk
        have hx2 : x = withBranches ((List.replicate (2 ^ d) (emptyBranch d (l + 1 - 1))).set
            ((0 + k) ^^^ (2 ^ d - 1)) b) := by
          simpa using hk.symm
        rw [hx2]
        simp only [Nat.add_sub_cancel]
        rw [inner_shape d l _ b (WFo_oLayer (hwf b hbb))]
        rfl
  · apply List.ne_nil_of_length_pos
    rw [expandBranchesGo_length]
    rw [hlen]
    exact Nat.two_pow_pos d

/-- Evaluating the divide-and-conquer child `bi` of the request one layer
below an expanded node: it resolves to the original branch `bi`. -/
theorem level2_branch (d l f bi : Nat)
    (bs : List OBranch) (hwf : ∀ b ∈ bs, WFo d l b)
    (hbi : bi < 2 ^ d) (b : OBranch) (hb : bs.get? bi = some b) :
    getSubtreeBranchF d (f + 1 + 1)
      (OBranch.node (l + 2) (expandBranchesGo d (l + 1) 0 bs)) l
      (vadd (List.replicate d ((2 : Int) ^ l))
        (branchOffset d (l + 1) bi)) = b := by
  have hp : (0 : Int) < 2 ^ l := by positivity
  have e1 : (2 : Int) ^ (l + 1) = 2 * 2 ^ l := by ring
  have e2 : (2 : Int) ^ (l + 2) = 4 * 2 ^ l := by ring
  have hbit01 : ∀ (n ax : Nat), ((bitOf n (d - 1 - ax) : Nat) : Int) = 0 ∨
      ((bitOf n (d - 1 - ax) : Nat) : Int) = 1 := by
    intro n ax
    have h2 := bitOf_lt_two n (d - 1 - ax)
    rcases (by omega : bitOf n (d - 1 - ax) = 0 ∨ bitOf n (d - 1 - ax) = 1) with h | h <;>
      rw [h]
    · left; rfl
    · right; rfl
  have hoff : vadd (List.replicate d ((2 : Int) ^ l)) (branchOffset d (l + 1) bi) =
      (List.range d).map fun ax => (2 : Int) ^ l + 2 ^ l * (bitOf bi (d - 1 - ax) : Int) := by
    unfold vadd branchOffset
    simp only [Nat.add_sub_cancel]
    rw [replicate_eq_range_map, zipWith_map_range]
  rw [hoff]
  have hb2 : rectInBounds (l + 2) l
      ((List.range d).map fun ax => (2 : Int) ^ l + 2 ^ l * (bitOf bi (d - 1 - ax) : Int)) =
      true := by
    apply rectInBounds_map
    intro ax _
    rcases hbit01 bi ax with h | h <;> rw [h] <;> refine ⟨by omega, by omega⟩
  have hmin : NdT.branchIdx (l + 1 + 1)
      ((List.range d).map fun ax => (2 : Int) ^ l + 2 ^ l * (bitOf bi (d - 1 - ax) : Int)) =
      bi := by
    apply branchIdx_bits (l + 1) d bi
      (fun t => (2 : Int) ^ l + 2 ^ l * (t : Int)) ?_ ?_ hbi
    · show ibit ((2 : Int) ^ l + 2 ^ l * ((0 : Nat) : Int)) (l + 1) = 0
      have h : (2 : Int) ^ l + 2 ^ l * ((0 : Nat) : Int) = 2 ^ l := by norm_num
      rw [h]
      exact ibit_of_lt (by omega) (by omega)
    · show ibit ((2 : Int) ^ l + 2 ^ l * ((1 : Nat) : Int)) (l + 1) = 1
      have h : (2 : Int) ^ l + 2 ^ l * ((1 : Nat) : Int) = 2 ^ (l + 1) := by
        push_cast; ring
      rw [h]
      refine ibit_of_ge le_rfl ?_
      have e3 : (2 : Int) ^ (l + 1 + 1) = 4 * 2 ^ l := by ring
      omega
  have hmax : NdT.branchIdx (l + 1 + 1)
      (vadd ((List.range d).map fun ax => (2 : Int) ^ l + 2 ^ l * (bitOf bi (d - 1 - ax) : Int))
        (List.replicate d ((2 : Int) ^ l - 1))) = bi := by
    unfold vadd
    rw [replicate_eq_range_map, zipWith_map_range]
    apply branchIdx_bits (l + 1) d bi
      (fun t => ((2 : Int) ^ l + 2 ^ l * (t : Int)) + (2 ^ l - 1)) ?_ ?_ hbi
    · show ibit (((2 : Int) ^ l + 2 ^ l * ((0 : Nat) : Int)) + (2 ^ l - 1)) (l + 1) = 0
      have h : ((2 : Int) ^ l + 2 ^ l * ((0 : Nat) : Int)) + (2 ^ l - 1) =
          2 ^ (l + 1) - 1 := by push_cast; ring
      rw [h]
      exact ibit_of_lt (by omega) (by omega)
    · show ibit (((2 : Int) ^ l + 2 ^ l * ((1 : Nat) : Int)) + (2 ^ l - 1)) (l + 1) = 1
      have h : ((2 : Int) ^ l + 2 ^ l * ((1 : Nat) : Int)) + (2 ^ l - 1) =
          3 * 2 ^ l - 1 := by push_cast; ring
      rw [h]
      refine ibit_of_ge (by omega) ?_
      have e3 : (2 : Int) ^ (l + 1 + 1) = 4 * 2 ^ l := by ring
      omega
  rw [getSubtreeBranchF.eq_def]
  simp only [oLayer]
  rw [hb2, if_pos rfl, if_neg (by omega : ¬ l = l + 2)]
  rw [hmin, hmax, if_pos rfl]
  have hget : (expandBranchesGo d (l + 1) 0 bs).get? bi =
      some (OBranch.node (l + 1)
        ((List.replicate (2 ^ d) (emptyBranch d l)).set (bi ^^^ (2 ^ d - 1)) b)) := by
    rw [expandBranchesGo_get? d (l + 1) bs 0 bi, hb]
    simp only [Nat.add_sub_cancel, Nat.zero_add, Option.map_some']
    rw [inner_shape d l _ b (WFo_oLayer (hwf b (List.get?_mem hb)))]
  rw [hget]
  have hoffd : vsub
      ((List.range d).map fun ax => (2 : Int) ^ l + 2 ^ l * (bitOf bi (d - 1 - ax) : Int))
      (branchOffset d (l + 2) bi) =
      (List.range d).map fun ax =>
        (2 : Int) ^ l * (bitOf (bi ^^^ (2 ^ d - 1)) (d - 1 - ax) : Int) := by
    unfold vsub branchOffset
    simp only [show l + 2 - 1 = l + 1 from rfl]
    rw [zipWith_map_range]
    apply List.map_congr_left
    intro ax hax
    rw [List.mem_range] at hax
    rw [bitOf_xor_mask bi (by omega : d - 1 - ax < d)]
    have h2 := bitOf_lt_two bi (d - 1 - ax)
    rcases (by omega : bitOf bi (d - 1 - ax) = 0 ∨ bitOf bi (d - 1 - ax) = 1) with h | h <;>
      rw [h] <;> push_cast <;> ring
  have hxm : bi ^^^ (2 ^ d - 1) < 2 ^ d :=
    Nat.xor_lt_two_pow hbi (by omega)
  have hsetget : ((List.replicate (2 ^ d) (emptyBranch d l)).set (bi ^^^ (2 ^ d - 1)) b).get?
      (bi ^^^ (2 ^ d - 1)) = some b := by
    rw [List.get?_set_eq, List.get?_eq_getElem?, List.getElem?_replicate]
    simp [hxm]
  have hwfb : WFo d l b := hwf b (List.get?_mem hb)
  rw [hoffd]
  exact level3_delegate d l f (bi ^^^ (2 ^ d - 1)) hxm _ b hsetget hwfb

theorem map_getD_range : ∀ (bs : List OBranch),
    (List.range bs.length).map (fun i => bs.getD i (OBranch.leaf 0)) = bs := by
  intro bs
  induction bs with
  | nil => rfl
  | cons b t ih =>
      show (List.range (t.length + 1)).map _ = _
      rw [List.range_succ_eq_map, List.map_cons, List.map_map]
      have h2 : (List.range t.length).map
            ((fun i => (b :: t).getD i (OBranch.leaf 0)) ∘ (· + 1)) =
          (List.range t.length).map (fun i => t.getD i (OBranch.leaf 0)) := by
        apply List.map_congr_left
        intro i _
        rfl
      rw [h2, ih]
      rfl

/-- The key algebraic fact: the concentric inner node of the expansion of a
well-formed node is that node again. -/
theorem getInner_expandCentered (d l : Nat) (hd : 1 ≤ d) (bs : List OBranch)
    (hlen : bs.length = 2 ^ d) (hwf : ∀ b ∈ bs, WFo d l b) :
    getInner d (expandCentered d (OBranch.node (l + 1) bs)) = OBranch.node (l + 1) bs := by
  have hp : (0 : Int) < 2 ^ l := by positivity
  have e1 : (2 : Int) ^ (l + 1) = 2 * 2 ^ l := by ring
  have e2 : (2 : Int) ^ (l + 2) = 4 * 2 ^ l := by ring
  rw [expandCentered_shape d l bs hlen hwf]
  unfold getInner getSubtree
  simp only [oLayer]
  have hoff0 : ((2 ^ (l + 2) / 4 : Nat) : Int) = (2 : Int) ^ l := by
    have h4 : (2 : Nat) ^ (l + 2) = 2 ^ l * 4 := by ring
    rw [h4, Nat.mul_div_cancel _ (by norm_num)]
    push_cast
    rfl
  rw [hoff0]
  simp only [show l + 2 - 1 = l + 1 from rfl]
  rw [show 2 * (l + 2) = 2 * l + 3 + 1 from by ring]
  rw [getSubtreeBranchF.eq_def]
  simp only [oLayer]
  have hb1 : rectInBounds (l + 2) (l + 1) (List.replicate d ((2 : Int) ^ l)) = true := by
    rw [replicate_eq_range_map]
    apply rectInBounds_map
    intro ax _
    refine ⟨by omega, by omega⟩
  rw [hb1, if_pos rfl, if_neg (by omega : ¬ l + 1 = l + 2)]
  have hmin : NdT.branchIdx (l + 2) (List.replicate d ((2 : Int) ^ l)) = 0 :=
    branchIdx_replicate_zero (l + 1) d _ (ibit_of_lt (by omega) (by omega))
  have hmaxval : vadd (List.replicate d ((2 : Int) ^ l))
      (List.replicate d ((2 : Int) ^ (l + 1) - 1)) =
      List.replicate d ((2 : Int) ^ l + ((2 : Int) ^ (l + 1) - 1)) := vadd_replicate _ _ d
  have hmax : NdT.branchIdx (l + 2) (vadd (List.replicate d ((2 : Int) ^ l))
      (List.replicate d ((2 : Int) ^ (l + 1) - 1))) = 2 ^ d - 1 := by
    rw [hmaxval]
    exact branchIdx_replicate_one (l + 1) d _ (ibit_of_ge (by omega) (by
      have e3 : (2 : Int) ^ (l + 1 + 1) = 4 * 2 ^ l := by ring
      omega))
  have h2d : 2 ≤ 2 ^ d := by
    calc 2 = 2 ^ 1 := rfl
      _ ≤ 2 ^ d := Nat.pow_le_pow_right (by norm_num) hd
  rw [hmin, hmax, if_neg (by omega : ¬ 0 = 2 ^ d - 1)]
  simp only [Nat.add_sub_cancel]
  simp only [show 2 * l + 3 = 2 * l + 1 + 1 + 1 from by ring]
  have hmap : ∀ bi ∈ List.range (2 ^ d),
      getSubtreeBranchF d (2 * l + 1 + 1 + 1)
        (OBranch.node (l + 2) (expandBranchesGo d (l + 1) 0 bs)) l
        (vadd (List.replicate d ((2 : Int) ^ l)) (branchOffset d (l + 1) bi)) =
      bs.getD bi (OBranch.leaf 0) := by
    intro bi hbi
    rw [List.mem_range] at hbi
    obtain ⟨b, hbg⟩ : ∃ b, bs.get? bi = some b := by
      cases hg : bs.get? bi with
      | none =>
          rw [List.get?_eq_none] at hg
          omega
      | some b => exact ⟨b, rfl⟩
    have hgd : bs.getD bi (OBranch.leaf 0) = b := by
      rw [List.get?_eq_getElem?] at hbg
      simp [List.getD, hbg]
    rw [hgd]
    exact level2_branch d l (2 * l + 1) bi bs hwf hbi b hbg
  rw [List.map_congr_left hmap]
  have hbs : (List.range (2 ^ d)).map (fun bi => bs.getD bi (OBranch.leaf 0)) = bs := by
    rw [← hlen]
    exact map_getD_range bs
  rw [hbs]
  apply withBranches_eq_node bs l (fun b hb => WFo_oLayer (hwf b hb))
  apply List.ne_nil_of_length_pos
  rw [hlen]
  exact Nat.two_pow_pos d

theorem sum_map_set_zero (g : OBranch → Nat) :
    ∀ (ll : List OBranch) (j : Nat) (x : OBranch),
      (∀ y ∈ ll, g y = 0) → j < ll.length →
      ((ll.set j x).map g).sum = g x := by
  intro ll
  induction ll with
  | nil =>
      intro j x _ hj
      simp at hj
  | cons y t ih =>
      intro j x hz hj
      cases j with
      | zero =>
          simp only [List.set_cons_zero, List.map_cons, List.sum_cons]
          have hzt : (t.map g).sum = 0 := by
            apply List.sum_eq_zero
            intro v hv
            rcases List.mem_map.mp hv with ⟨y2, hy2, rfl⟩
            exact hz y2 (List.mem_cons_of_mem y hy2)
          rw [hzt]
          omega
      | succ j =>
          simp only [List.set_cons_succ, List.map_cons, List.sum_cons]
          rw [hz y (List.mem_cons_self y t), ih j x
            (fun v hv => hz v (List.mem_cons_of_mem y hv)) (by simpa using hj)]
          omega

/-- `expand_centered` preserves the population: every new branch holds one
original branch in an otherwise empty node. -/
theorem popsum_expandBranches (d l : Nat) :
    ∀ (bs : List OBranch) (bi : Nat), bi + bs.length ≤ 2 ^ d →
      (∀ b ∈ bs, WFo d l b) →
      ((expandBranchesGo d (l + 1) bi bs).map (popF (l + 1))).sum =
        (bs.map (popF l)).sum := by
  intro bs
  induction bs with
  | nil => intro bi _ _; rfl
  | cons b t ih =>
      intro bi hle hwf
      rw [expandBranchesGo]
      simp only [Nat.add_sub_cancel, List.map_cons, List.sum_cons]
      have hxm : bi ^^^ (2 ^ d - 1) < 2 ^ d := by
        apply Nat.xor_lt_two_pow (by simp at hle; omega) (by have := Nat.two_pow_pos d; omega)
      have hhead : popF (l + 1)
          (withBranches ((List.replicate (2 ^ d) (emptyBranch d l)).set
            (bi ^^^ (2 ^ d - 1)) b)) = popF l b := by
        show (((List.replicate (2 ^ d) (emptyBranch d l)).set
          (bi ^^^ (2 ^ d - 1)) b).map (popF l)).sum = popF l b
        apply sum_map_set_zero
        · intro y hy
          rw [List.eq_of_mem_replicate hy]
          exact popF_emptyBranch d l
        · rw [List.length_replicate]
          exact hxm
      rw [hhead, ih (bi + 1) (by simp at hle ⊢; omega)
        (fun v hv => hwf v (List.mem_cons_of_mem b hv))]

theorem pop_expandCentered (d l : Nat) (bs : List OBranch)
    (hlen : bs.length = 2 ^ d) (hwf : ∀ b ∈ bs, WFo d l b) :
    pop (expandCentered d (OBranch.node (l + 1) bs)) = pop (OBranch.node (l + 1) bs) := by
  rw [expandCentered_shape d l bs hlen hwf]
  show popF (oLayer (OBranch.node (l + 2) (expandBranchesGo d (l + 1) 0 bs))) _ = _
  simp only [oLayer]
  show ((expandBranchesGo d (l + 1) 0 bs).map (popF (l + 1))).sum =
    popF (l + 1) (OBranch.node (l + 1) bs)
  rw [popsum_expandBranches d l bs 0 (by omega) hwf]
  rfl

theorem contractGo_succ (d P f : Nat) (ret : OBranch) :
    contractGo d P (f + 1) ret =
      if 1 < oLayer ret ∧ P = pop (getInner d ret) then
        contractGo d P f (getInner d ret)
      else ret := rfl

end NodeOld

/-- Claim C7 counterexample: the empty 1-dimensional tree at layer 2 is
taken below its original layer by `contract_centered` after
`expand_centered`, because the loop compares against the population of the
starting node (here 0) instead of stopping at the original: the result has
layer 1, so it is not pointer-equal (not even structurally equal) to the
original node. -/
theorem claim_C7_counterexample :
    NodeOld.contractCentered 1 (NodeOld.expandCentered 1 (NodeOld.emptyBranch 1 2)) ≠
      NodeOld.emptyBranch 1 2 := by
  intro h
  exact absurd (congrArg NodeOld.oLayer h) (by decide)

/-- Claim C7 (amended): for a well-formed node `n` of positive layer in a
positive dimension which does not itself admit a contraction (its layer is 1,
or its concentric inner node loses population), `contract_centered` leaves
`n` unchanged, and `contract_centered` after `expand_centered` returns `n`
itself (pointer equality is structural equality under hash-consing).
Without the no-contraction hypothesis the round trip can descend below `n`
(see the counterexample). -/
theorem claim_C7_roundtrip (d L : Nat) (n : NodeOld.OBranch) (hd : 1 ≤ d) (hL : 1 ≤ L)
    (hwf : NodeOld.WFo d L n)
    (hnc : ¬ (1 < NodeOld.oLayer n ∧
      NodeOld.pop n = NodeOld.pop (NodeOld.getInner d n))) :
    NodeOld.contractCentered d n = n ∧
    NodeOld.contractCentered d (NodeOld.expandCentered d n) = n := by
  cases hwf with
  | leaf c => omega
  | node l bs hlen hb =>
      constructor
      · show NodeOld.contractGo d (NodeOld.pop (NodeOld.OBranch.node (l + 1) bs))
          (NodeOld.oLayer (NodeOld.OBranch.node (l + 1) bs)) (NodeOld.OBranch.node (l + 1) bs) =
          NodeOld.OBranch.node (l + 1) bs
        simp only [NodeOld.oLayer]
        rw [NodeOld.contractGo_succ]
        rw [if_neg hnc]
      · have hE := NodeOld.expandCentered_shape d l bs hlen hb
        have hI := NodeOld.getInner_expandCentered d l hd bs hlen hb
        have hP := NodeOld.pop_expandCentered d l bs hlen hb
        rw [hE] at hI hP
        show NodeOld.contractGo d
            (NodeOld.pop (NodeOld.expandCentered d (NodeOld.OBranch.node (l + 1) bs)))
            (NodeOld.oLayer (NodeOld.expandCentered d (NodeOld.OBranch.node (l + 1) bs)))
            (NodeOld.expandCentered d (NodeOld.OBranch.node (l + 1) bs)) =
          NodeOld.OBranch.node (l + 1) bs
        rw [hE]
        simp only [NodeOld.oLayer]
        rw [show l + 2 = l + 1 + 1 from rfl, NodeOld.contractGo_succ]
        rw [if_pos ⟨by simp [NodeOld.oLayer], by rw [hI, hP]⟩]
        rw [hI, NodeOld.contractGo_succ]
        rw [if_neg (by
          intro hcon
          rcases hcon with ⟨h1, h2⟩
          rw [hP] at h2
          exact hnc ⟨h1, h2⟩)]

/-- Witness for claim C7: in one dimension, the layer-1 node with cells
`[1, 0]` satisfies the hypotheses (it is well-formed and, being at layer 1,
admits no contraction), and expanding then contracting returns it. -/
theorem claim_C7_witness :
    (1 ≤ 1 ∧
      NodeOld.WFo 1 1 (NodeOld.OBranch.node 1 [NodeOld.OBranch.leaf 1, NodeOld.OBranch.leaf 0]) ∧
      ¬ (1 < NodeOld.oLayer (NodeOld.OBranch.node 1 [NodeOld.OBranch.leaf 1, NodeOld.OBranch.leaf 0]) ∧
        NodeOld.pop (NodeOld.OBranch.node 1 [NodeOld.OBranch.leaf 1, NodeOld.OBranch.leaf 0]) =
          NodeOld.pop (NodeOld.getInner 1
            (NodeOld.OBranch.node 1 [NodeOld.OBranch.leaf 1, NodeOld.OBranch.leaf 0])))) ∧
    NodeOld.contractCentered 1 (NodeOld.expandCentered 1
        (NodeOld.OBranch.node 1 [NodeOld.OBranch.leaf 1, NodeOld.OBranch.leaf 0])) =
      NodeOld.OBranch.node 1 [NodeOld.OBranch.leaf 1, NodeOld.OBranch.leaf 0] := by
  have hwf : NodeOld.WFo 1 1 (NodeOld.OBranch.node 1 [NodeOld.OBranch.leaf 1, NodeOld.OBranch.leaf 0]) := by
    have h01 : (1 : Nat) = 0 + 1 := rfl
    rw [h01]
    apply NodeOld.WFo.node 0 [NodeOld.OBranch.leaf 1, NodeOld.OBranch.leaf 0] (by decide)
    intro b hbm
    rcases List.mem_cons.mp hbm with rfl | hbm2
    · exact NodeOld.WFo.leaf 1
    · rcases List.mem_cons.mp hbm2 with rfl | hbm3
      · exact NodeOld.WFo.leaf 0
      · cases hbm3
  have hnc : ¬ (1 < NodeOld.oLayer (NodeOld.OBranch.node 1 [NodeOld.OBranch.leaf 1, NodeOld.OBranch.leaf 0]) ∧
      NodeOld.pop (NodeOld.OBranch.node 1 [NodeOld.OBranch.leaf 1, NodeOld.OBranch.leaf 0]) =
        NodeOld.pop (NodeOld.getInner 1
          (NodeOld.OBranch.node 1 [NodeOld.OBranch.leaf 1, NodeOld.OBranch.leaf 0]))) := by
    intro h
    exact absurd h.1 (by decide)
  exact ⟨⟨le_rfl, hwf, hnc⟩,
    (claim_C7_roundtrip 1 1 _ le_rfl le_rfl hwf hnc).2⟩

end NDCell
